import Mathlib

/-!
# TileDB-SOMA: the Arrow adapter, the `create` binding and the query cursor

A shallow embedding of `libtiledbsoma/src/utils/arrow_adapter.{h,cc}`:

* `to_arrow_format`, the engine-datatype to Arrow-format-code switch;
* `_get_data_and_length`, the extraction of an enumeration's values into a
  flat buffer (out-of-line definition of `arrow_adapter.cc`);
* `tiledb_schema_to_arrow_schema`, the construction of the exported schema;
* `release_schema`, the release callback of the exported schema, also as the
  sequence of callback invocations and deallocations it performs;
* `release_array`, the release callback of the exported array, with the
  shared pointers to a `ColumnBuffer` given by their use count;

of the `create` binding in `apis/python/src/tiledbsoma/soma_dataframe.cc`:

* `create_override_nullable`, the pass that overrides the nullable flags from
  the schema's metadata;
* `create_try`, the `try` block that turns C++ exceptions into Python ones;

and of the query cursor behind `read_next` / `next_results`, whose definition
is not among the sources and is modelled from the specification.

Pointers are natural numbers (`0` is the null pointer), `malloc`, `strdup`
and `new` hand out an address that is not live, and `free` is recorded in a
log of the addresses it was called on.
-/

namespace tiledbsoma

/-! ## Engine datatypes -/

/-- Engine datatype tags (`tiledb_datatype_t` of the storage engine's C API),
in the order of the engine's enumeration. -/
inductive tiledb_datatype_t where
  | TILEDB_INT32
  | TILEDB_INT64
  | TILEDB_FLOAT32
  | TILEDB_FLOAT64
  | TILEDB_CHAR
  | TILEDB_INT8
  | TILEDB_UINT8
  | TILEDB_INT16
  | TILEDB_UINT16
  | TILEDB_UINT32
  | TILEDB_UINT64
  | TILEDB_STRING_ASCII
  | TILEDB_STRING_UTF8
  | TILEDB_STRING_UTF16
  | TILEDB_STRING_UTF32
  | TILEDB_STRING_UCS2
  | TILEDB_STRING_UCS4
  | TILEDB_ANY
  | TILEDB_DATETIME_YEAR
  | TILEDB_DATETIME_MONTH
  | TILEDB_DATETIME_WEEK
  | TILEDB_DATETIME_DAY
  | TILEDB_DATETIME_HR
  | TILEDB_DATETIME_MIN
  | TILEDB_DATETIME_SEC
  | TILEDB_DATETIME_MS
  | TILEDB_DATETIME_US
  | TILEDB_DATETIME_NS
  | TILEDB_DATETIME_PS
  | TILEDB_DATETIME_FS
  | TILEDB_DATETIME_AS
  | TILEDB_TIME_HR
  | TILEDB_TIME_MIN
  | TILEDB_TIME_SEC
  | TILEDB_TIME_MS
  | TILEDB_TIME_US
  | TILEDB_TIME_NS
  | TILEDB_TIME_PS
  | TILEDB_TIME_FS
  | TILEDB_TIME_AS
  | TILEDB_BLOB
  | TILEDB_BOOL
  | TILEDB_GEOM_WKB
  | TILEDB_GEOM_WKT
  deriving DecidableEq, Repr

open tiledb_datatype_t

/-- Name of an engine datatype as the engine's `tiledb::impl::type_to_str`
renders it (the enumerator without its `TILEDB_` prefix).  It only feeds the
text of error messages. -/
def type_to_str : tiledb_datatype_t → String
  | TILEDB_INT32 => "INT32"
  | TILEDB_INT64 => "INT64"
  | TILEDB_FLOAT32 => "FLOAT32"
  | TILEDB_FLOAT64 => "FLOAT64"
  | TILEDB_CHAR => "CHAR"
  | TILEDB_INT8 => "INT8"
  | TILEDB_UINT8 => "UINT8"
  | TILEDB_INT16 => "INT16"
  | TILEDB_UINT16 => "UINT16"
  | TILEDB_UINT32 => "UINT32"
  | TILEDB_UINT64 => "UINT64"
  | TILEDB_STRING_ASCII => "STRING_ASCII"
  | TILEDB_STRING_UTF8 => "STRING_UTF8"
  | TILEDB_STRING_UTF16 => "STRING_UTF16"
  | TILEDB_STRING_UTF32 => "STRING_UTF32"
  | TILEDB_STRING_UCS2 => "STRING_UCS2"
  | TILEDB_STRING_UCS4 => "STRING_UCS4"
  | TILEDB_ANY => "ANY"
  | TILEDB_DATETIME_YEAR => "DATETIME_YEAR"
  | TILEDB_DATETIME_MONTH => "DATETIME_MONTH"
  | TILEDB_DATETIME_WEEK => "DATETIME_WEEK"
  | TILEDB_DATETIME_DAY => "DATETIME_DAY"
  | TILEDB_DATETIME_HR => "DATETIME_HR"
  | TILEDB_DATETIME_MIN => "DATETIME_MIN"
  | TILEDB_DATETIME_SEC => "DATETIME_SEC"
  | TILEDB_DATETIME_MS => "DATETIME_MS"
  | TILEDB_DATETIME_US => "DATETIME_US"
  | TILEDB_DATETIME_NS => "DATETIME_NS"
  | TILEDB_DATETIME_PS => "DATETIME_PS"
  | TILEDB_DATETIME_FS => "DATETIME_FS"
  | TILEDB_DATETIME_AS => "DATETIME_AS"
  | TILEDB_TIME_HR => "TIME_HR"
  | TILEDB_TIME_MIN => "TIME_MIN"
  | TILEDB_TIME_SEC => "TIME_SEC"
  | TILEDB_TIME_MS => "TIME_MS"
  | TILEDB_TIME_US => "TIME_US"
  | TILEDB_TIME_NS => "TIME_NS"
  | TILEDB_TIME_PS => "TIME_PS"
  | TILEDB_TIME_FS => "TIME_FS"
  | TILEDB_TIME_AS => "TIME_AS"
  | TILEDB_BLOB => "BLOB"
  | TILEDB_BOOL => "BOOL"
  | TILEDB_GEOM_WKB => "GEOM_WKB"
  | TILEDB_GEOM_WKT => "GEOM_WKT"

/-! ## Failures -/

/-- How a call can fail to return: by throwing `TileDBSOMAError` with a
message, or by running into an operation whose behaviour C++ leaves
undefined (no result can be attributed to the call). -/
inductive Failure where
  | TileDBSOMAError (msg : String)
  | undefined_behavior
  deriving DecidableEq, Repr

/-! ## `to_arrow_format` -/

/-- `ArrowAdapter::to_arrow_format(datatype, use_large = true)`: the switch of
`arrow_adapter.cc`; the `default:` branch falls out of the switch to the
`throw`. -/
def to_arrow_format (datatype : tiledb_datatype_t) (use_large : Bool := true) :
    Except Failure String :=
  match datatype with
  | TILEDB_STRING_ASCII | TILEDB_STRING_UTF8 =>
      .ok (if use_large then "U" else "u")
  | TILEDB_CHAR | TILEDB_BLOB =>
      .ok (if use_large then "Z" else "z")
  | TILEDB_BOOL => .ok "b"
  | TILEDB_INT32 => .ok "i"
  | TILEDB_INT64 => .ok "l"
  | TILEDB_FLOAT32 => .ok "f"
  | TILEDB_FLOAT64 => .ok "g"
  | TILEDB_INT8 => .ok "c"
  | TILEDB_UINT8 => .ok "C"
  | TILEDB_INT16 => .ok "s"
  | TILEDB_UINT16 => .ok "S"
  | TILEDB_UINT32 => .ok "I"
  | TILEDB_UINT64 => .ok "L"
  | TILEDB_TIME_SEC => .ok "tts"
  | TILEDB_TIME_MS => .ok "ttm"
  | TILEDB_TIME_US => .ok "ttu"
  | TILEDB_TIME_NS => .ok "ttn"
  | TILEDB_DATETIME_SEC => .ok "tss:"
  | TILEDB_DATETIME_MS => .ok "tsm:"
  | TILEDB_DATETIME_US => .ok "tsu:"
  | TILEDB_DATETIME_NS => .ok "tsn:"
  | _ =>
      .error (.TileDBSOMAError
        ("ArrowAdapter: Unsupported TileDB datatype: " ++ type_to_str datatype ++ " "))

/-- The type-code table as the specification lists it: engine datatype, format
code of the small-offset variant, format code of the large-offset variant
(the two agree for every fixed-width type).  "byte" is the engine's
`TILEDB_CHAR`. -/
def typeCodeTable : List (tiledb_datatype_t × String × String) :=
  [ (TILEDB_STRING_ASCII, "u", "U"), (TILEDB_STRING_UTF8, "u", "U"),
    (TILEDB_CHAR, "z", "Z"), (TILEDB_BLOB, "z", "Z"),
    (TILEDB_BOOL, "b", "b"),
    (TILEDB_INT32, "i", "i"), (TILEDB_INT64, "l", "l"),
    (TILEDB_FLOAT32, "f", "f"), (TILEDB_FLOAT64, "g", "g"),
    (TILEDB_INT8, "c", "c"), (TILEDB_UINT8, "C", "C"),
    (TILEDB_INT16, "s", "s"), (TILEDB_UINT16, "S", "S"),
    (TILEDB_UINT32, "I", "I"), (TILEDB_UINT64, "L", "L"),
    (TILEDB_TIME_SEC, "tts", "tts"), (TILEDB_TIME_MS, "ttm", "ttm"),
    (TILEDB_TIME_US, "ttu", "ttu"), (TILEDB_TIME_NS, "ttn", "ttn"),
    (TILEDB_DATETIME_SEC, "tss:", "tss:"), (TILEDB_DATETIME_MS, "tsm:", "tsm:"),
    (TILEDB_DATETIME_US, "tsu:", "tsu:"), (TILEDB_DATETIME_NS, "tsn:", "tsn:") ]

/-- The engine datatypes that have an entry in the type-code table. -/
def inTypeCodeTable (datatype : tiledb_datatype_t) : Bool :=
  (typeCodeTable.map Prod.fst).contains datatype

/-- The format code the type-code table gives an engine datatype when the
large-offset variant is asked for (the default), `none` for a datatype
without an entry. -/
def tableCode (datatype : tiledb_datatype_t) : Option String :=
  (typeCodeTable.lookup datatype).map (fun codes => codes.2)

/-! ## Memory -/

/-- Addresses; `nullptr` is address `0`. -/
abbrev Ptr := Nat

/-- The null pointer. -/
def nullptr : Ptr := 0

/-- The heap, as far as this development needs it: the addresses of the blocks
that are live (handed out by `malloc`, `strdup` or `new` and not yet freed). -/
abbrev Heap := List Ptr

/-- The address the allocator hands out next: not null and not live. -/
def Heap.fresh (h : Heap) : Ptr := h.foldr max 0 + 1

/-- `malloc` (also `new`): allocation is taken to succeed; it returns a non-null
address that is not live and makes the block live. -/
def malloc (h : Heap) : Ptr × Heap := (h.fresh, h.fresh :: h)

/-- A `const char*`: null, a string literal in static storage, or a
null-terminated string in a heap block at address `p`. -/
inductive CStr where
  | null
  | static (s : String)
  | heap (p : Ptr) (s : String)
  deriving DecidableEq, Repr

/-- The text a `const char*` points to, when it is not null. -/
def CStr.text : CStr → Option String
  | .null => none
  | .static s => some s
  | .heap _ s => some s

/-- `strdup(s)`: a fresh heap block holding a copy of `s`. -/
def strdup (h : Heap) (s : String) : CStr × Heap :=
  let (p, h) := malloc h
  (.heap p s, h)

/-- One call of `free` (or `delete`) on a non-null pointer: on a heap block, or
on a string literal (which `free` must never be given).  `free(nullptr)` does
nothing and is not recorded. -/
inductive FreeCall where
  | block (p : Ptr)
  | literal (s : String)
  deriving DecidableEq, Repr

/-- The calls of `free` that `free((void*)s)` on a `const char*` makes. -/
def CStr.free : CStr → List FreeCall
  | .null => []
  | .static s => [.literal s]
  | .heap p _ => [.block p]

/-- The calls of `free` that `free(p)` on a block pointer makes. -/
def free (p : Ptr) : List FreeCall :=
  if p = nullptr then [] else [.block p]

/-! ## Enumerations: `_get_data_and_length` -/

/-- The engine's `Enumeration`, as this code observes it: `type()`, the result
of `as_vector<bool>()`, and the result of `as_vector<T>()` for the fixed-width
`T` the switch selects, each element given by its object representation (the
bytes it occupies in memory, in memory order). -/
structure Enumeration where
  type : tiledb_datatype_t
  as_vector_bool : List Bool
  as_vector : List (List Nat)
  deriving DecidableEq, Repr

/-- A `const void*` together with the bytes of the block it points to. -/
structure Buffer where
  ptr : Ptr
  bytes : List Nat
  deriving DecidableEq, Repr

/-- `data[i] << i` for a `bool` `data[i]` and a `size_t` `i`: the left operand
is promoted to `int` (32 bits), so a shift count of 32 or more is undefined;
otherwise the result is given as its 32-bit two's-complement pattern. -/
def shl_int (b : Bool) (i : Nat) : Except Failure Nat :=
  if i < 32 then .ok ((b.toNat <<< i) % 2 ^ 32) else .error .undefined_behavior

/-- The loop `for (size_t i = 0; i < data.size(); ++i) src |= (data[i] << i);`
from index `i` on, `data` being the values not yet visited and `src` the
`uint8_t` accumulator (the compound assignment converts back to `uint8_t`). -/
def pack_bits : List Bool → Nat → Nat → Except Failure Nat
  | [], _, src => .ok src
  | b :: data, i, src =>
      match shl_int b i with
      | .error e => .error e
      | .ok x => pack_bits data (i + 1) ((src ||| x) % 256)

/-- `ArrowAdapter::_fill_data_buffer<T>(src, dst)` with `sizeofT = sizeof(T)`:
the incoming `dst` is overwritten by the `malloc` result, and `memcpy` copies
the first `sz` bytes of the vector's storage. -/
def _fill_data_buffer (sizeofT : Nat) (h : Heap) (src : List (List Nat)) (_dst : Ptr) :
    Buffer × Heap :=
  let sz := src.length * sizeofT
  let (dst, h) := malloc h
  ({ ptr := dst, bytes := src.flatten.take sz }, h)

/-- `ArrowAdapter::_get_data_and_length(enmr, dst)` as defined in
`arrow_adapter.cc`: the returned pair (buffer, element count) and the heap
after the call. -/
def _get_data_and_length (h : Heap) (enmr : Enumeration) (dst : Ptr) :
    Except Failure ((Buffer × Nat) × Heap) :=
  match enmr.type with
  | TILEDB_BOOL =>
      let data := enmr.as_vector_bool
      match pack_bits data 0 0 with
      | .error e => .error e
      | .ok src =>
          let sz := 1
          let (dst, h) := malloc h
          .ok (({ ptr := dst, bytes := [src].take sz }, data.length), h)
  | TILEDB_INT8 =>
      let data := enmr.as_vector
      let (buf, h) := _fill_data_buffer 1 h data dst
      .ok ((buf, data.length), h)
  | TILEDB_UINT8 =>
      let data := enmr.as_vector
      let (buf, h) := _fill_data_buffer 1 h data dst
      .ok ((buf, data.length), h)
  | TILEDB_INT16 =>
      let data := enmr.as_vector
      let (buf, h) := _fill_data_buffer 2 h data dst
      .ok ((buf, data.length), h)
  | TILEDB_UINT16 =>
      let data := enmr.as_vector
      let (buf, h) := _fill_data_buffer 2 h data dst
      .ok ((buf, data.length), h)
  | TILEDB_INT32 =>
      let data := enmr.as_vector
      let (buf, h) := _fill_data_buffer 4 h data dst
      .ok ((buf, data.length), h)
  | TILEDB_UINT32 =>
      let data := enmr.as_vector
      let (buf, h) := _fill_data_buffer 4 h data dst
      .ok ((buf, data.length), h)
  | TILEDB_INT64 =>
      let data := enmr.as_vector
      let (buf, h) := _fill_data_buffer 8 h data dst
      .ok ((buf, data.length), h)
  | TILEDB_UINT64 =>
      let data := enmr.as_vector
      let (buf, h) := _fill_data_buffer 8 h data dst
      .ok ((buf, data.length), h)
  | TILEDB_FLOAT32 =>
      let data := enmr.as_vector
      let (buf, h) := _fill_data_buffer 4 h data dst
      .ok ((buf, data.length), h)
  | TILEDB_FLOAT64 =>
      let data := enmr.as_vector
      let (buf, h) := _fill_data_buffer 8 h data dst
      .ok ((buf, data.length), h)
  | _ =>
      .error (.TileDBSOMAError
        ("ArrowAdapter: Unsupported TileDB dict datatype: " ++ type_to_str enmr.type ++ " "))

/-- The enumeration types the specification lists as supported by
`extractValues`: booleans, 8/16/32/64-bit signed and unsigned integers,
32/64-bit floats. -/
def enumerationTypeList : List tiledb_datatype_t :=
  [ TILEDB_BOOL, TILEDB_INT8, TILEDB_UINT8, TILEDB_INT16, TILEDB_UINT16,
    TILEDB_INT32, TILEDB_UINT32, TILEDB_INT64, TILEDB_UINT64,
    TILEDB_FLOAT32, TILEDB_FLOAT64 ]

/-- Byte width of one value of a supported non-boolean primitive type, as the
specification names the types: 8/16/32/64-bit integers, 32/64-bit floats. -/
def primitiveWidth : tiledb_datatype_t → Option Nat
  | TILEDB_INT8 | TILEDB_UINT8 => some 1
  | TILEDB_INT16 | TILEDB_UINT16 => some 2
  | TILEDB_INT32 | TILEDB_UINT32 | TILEDB_FLOAT32 => some 4
  | TILEDB_INT64 | TILEDB_UINT64 | TILEDB_FLOAT64 => some 8
  | _ => none

/-! ## The exported schema -/

/-- Modelled from the spec: `carrow.h`, which defines `ARROW_FLAG_NULLABLE`, is
not among the sources; the specification names "the nullable bit" of the flags
bitmask, and the Arrow C data interface gives that bit the value 2. -/
def ARROW_FLAG_NULLABLE : Nat := 2

/-- The release callbacks a schema node of this program can carry; a node's
`release` pointer is either null or `&release_schema`. -/
inductive ReleaseCallback where
  | release_schema
  deriving DecidableEq, Repr

/-- A `struct ArrowSchema` on the heap together with everything it points to:
`self` is the address of the struct, `flags` the 64-bit pattern of the `int64_t`
field, `children_ptr` the address of the children array (null when there is
none), `children` the nodes the array's entries point to (`n_children` is
their number), `dictionary` the node the dictionary pointer points to (`none`
for a null pointer), `release` the release pointer (`none` for null). -/
inductive ArrowSchema where
  | mk (self : Ptr) (format : CStr) (name : CStr) (metadata : CStr) (flags : Nat)
      (children_ptr : Ptr) (children : List ArrowSchema)
      (dictionary : Option ArrowSchema) (release : Option ReleaseCallback)

/-- Address of the struct. -/
def ArrowSchema.self : ArrowSchema → Ptr
  | .mk self _ _ _ _ _ _ _ _ => self

/-- Field `format`. -/
def ArrowSchema.format : ArrowSchema → CStr
  | .mk _ format _ _ _ _ _ _ _ => format

/-- Field `name`. -/
def ArrowSchema.name : ArrowSchema → CStr
  | .mk _ _ name _ _ _ _ _ _ => name

/-- Field `metadata`. -/
def ArrowSchema.metadata : ArrowSchema → CStr
  | .mk _ _ _ metadata _ _ _ _ _ => metadata

/-- Field `flags`. -/
def ArrowSchema.flags : ArrowSchema → Nat
  | .mk _ _ _ _ flags _ _ _ _ => flags

/-- Field `children` (the address of the array). -/
def ArrowSchema.children_ptr : ArrowSchema → Ptr
  | .mk _ _ _ _ _ children_ptr _ _ _ => children_ptr

/-- The nodes `children[0] .. children[n_children - 1]` point to. -/
def ArrowSchema.children : ArrowSchema → List ArrowSchema
  | .mk _ _ _ _ _ _ children _ _ => children

/-- Field `n_children`. -/
def ArrowSchema.n_children (s : ArrowSchema) : Nat := s.children.length

/-- Field `dictionary`. -/
def ArrowSchema.dictionary : ArrowSchema → Option ArrowSchema
  | .mk _ _ _ _ _ _ _ dictionary _ => dictionary

/-- Field `release`. -/
def ArrowSchema.release : ArrowSchema → Option ReleaseCallback
  | .mk _ _ _ _ _ _ _ _ release => release

/-! ### The engine schema -/

/-- An engine dimension, as the code reads it: `name()` and `type()`. -/
structure Dimension where
  name : String
  type : tiledb_datatype_t
  deriving DecidableEq, Repr

/-- An engine attribute, as the code reads it: `name()`, `type()` and
`nullable()`; `enumeration_name` is the name of the enumeration the engine
attaches to the attribute, if any (the code never reads it). -/
structure Attribute where
  name : String
  type : tiledb_datatype_t
  nullable : Bool
  enumeration_name : Option String
  deriving DecidableEq, Repr

/-- The engine's `ArraySchema`: the dimensions of its domain and its
attributes, in engine order (`ndim()` and `attribute_num()` are the lengths;
both are `unsigned`, and their sum is taken not to wrap). -/
structure ArraySchema where
  dimensions : List Dimension
  attributes : List Attribute
  deriving DecidableEq, Repr

/-! ### `tiledb_schema_to_arrow_schema` -/

/-- Body of the first loop of `tiledb_schema_to_arrow_schema` for one
dimension: `malloc` of the child, `to_arrow_format(dim.type())` (which may
throw), `strdup` of the name, and the field assignments. -/
def dimension_child (h : Heap) (dim : Dimension) : Except Failure (ArrowSchema × Heap) :=
  let (child, h) := malloc h
  match to_arrow_format dim.type with
  | .error e => .error e
  | .ok format =>
      let (name, h) := strdup h dim.name
      .ok (.mk child (.static format) name .null 0 nullptr [] none (some .release_schema), h)

/-- The first loop, over the dimensions in engine order. -/
def dimension_children : Heap → List Dimension → Except Failure (List ArrowSchema × Heap)
  | h, [] => .ok ([], h)
  | h, dim :: dims =>
      match dimension_child h dim with
      | .error e => .error e
      | .ok (child, h) =>
          match dimension_children h dims with
          | .error e => .error e
          | .ok (children, h) => .ok (child :: children, h)

/-- Body of the second loop for one attribute. -/
def attribute_child (h : Heap) (attr : Attribute) : Except Failure (ArrowSchema × Heap) :=
  let (child, h) := malloc h
  match to_arrow_format attr.type with
  | .error e => .error e
  | .ok format =>
      let (name, h) := strdup h attr.name
      .ok (.mk child (.static format) name .null
        (if attr.nullable then ARROW_FLAG_NULLABLE else 0) nullptr [] none
        (some .release_schema), h)

/-- The second loop, over the attributes in engine order. -/
def attribute_children : Heap → List Attribute → Except Failure (List ArrowSchema × Heap)
  | h, [] => .ok ([], h)
  | h, attr :: attrs =>
      match attribute_child h attr with
      | .error e => .error e
      | .ok (child, h) =>
          match attribute_children h attrs with
          | .error e => .error e
          | .ok (children, h) => .ok (child :: children, h)

/-- `tiledb_schema_to_arrow_schema(tiledb_schema)` as defined in
`arrow_adapter.cc`: the root comes from `std::make_unique<ArrowSchema>()`
(every field zero before the assignments), then the children array, then the
two loops.  The result is the root and the heap after the call. -/
def tiledb_schema_to_arrow_schema (h : Heap) (tiledb_schema : ArraySchema) :
    Except Failure (ArrowSchema × Heap) :=
  let (arrow_schema, h) := malloc h
  let (children, h) := malloc h
  match dimension_children h tiledb_schema.dimensions with
  | .error e => .error e
  | .ok (dims, h) =>
      match attribute_children h tiledb_schema.attributes with
      | .error e => .error e
      | .ok (attrs, h) =>
          .ok (.mk arrow_schema (.static "+s") .null .null 0 children (dims ++ attrs) none
            (some .release_schema), h)

/-! ### `release_schema` -/

/-- The statement `if (s != nullptr) { free((void*)s); s = nullptr; }` on a
`const char*` field: the field afterwards and the calls of `free` made. -/
def CStr.release (s : CStr) : CStr × List FreeCall :=
  if s = .null then (s, []) else (.null, s.free)

mutual
/-- `ArrowAdapter::release_schema(schema)`: the node as the call leaves it (a
freed child or dictionary is shown in the state it had when it was freed) and
the log of the calls of `free` and `delete`, in order. -/
def release_schema : ArrowSchema → ArrowSchema × List FreeCall
  | .mk self format name metadata flags children_ptr children dictionary _ =>
      let (name, children, log) := release_schema_loop name children
      let log := log ++ free children_ptr
      match dictionary with
      | none => (.mk self format name metadata flags children_ptr children none none, log)
      | some (.mk dself dformat dname dmetadata dflags dchildren_ptr dchildren ddict drelease) =>
          let (dformat, dlog) := dformat.release
          let log := log ++ dlog ++ (if drelease.isSome then [.block dself] else [])
          (.mk self format name metadata flags children_ptr children
            (some (.mk dself dformat dname dmetadata dflags dchildren_ptr dchildren ddict drelease))
            none, log)
/-- The loop of `release_schema` over the children not yet visited, `name`
being the parent's `name` field: each round frees the parent's name if it is
set, calls the child's release callback if it is set, and frees the child. -/
def release_schema_loop : CStr → List ArrowSchema → CStr × List ArrowSchema × List FreeCall
  | name, [] => (name, [], [])
  | name, child :: children =>
      let (name, log1) := name.release
      let (child, log2) :=
        match child.release with
        | some .release_schema => release_schema child
        | none => (child, [])
      let log3 := [.block child.self]
      let (name, children, log4) := release_schema_loop name children
      (name, child :: children, log1 ++ log2 ++ log3 ++ log4)
end

/-! ### `release_schema`, with the callback invocations recorded -/

/-- What `release_schema` does that can be observed from outside: it invokes
the release callback of the node at an address (`child->release(child)`), or
it calls `free` or `delete`. -/
inductive ReleaseEvent where
  | call (node : Ptr)
  | free (f : FreeCall)
  deriving DecidableEq, Repr

mutual
/-- `ArrowAdapter::release_schema(schema)` once more, this time as the
sequence of callback invocations and deallocations it performs, in order. -/
def release_schema_trace : ArrowSchema → List ReleaseEvent
  | .mk _ _ name _ _ children_ptr children dictionary _ =>
      release_schema_loop_trace name children ++ (free children_ptr).map .free ++
        match dictionary with
        | none => []
        | some (.mk dself dformat _ _ _ _ _ _ drelease) =>
            dformat.release.2.map .free ++
              (if drelease.isSome then [.free (.block dself)] else [])
/-- The loop of `release_schema` as a sequence of events. -/
def release_schema_loop_trace : CStr → List ArrowSchema → List ReleaseEvent
  | _, [] => []
  | name, child :: children =>
      name.release.2.map .free ++
        (match child.release with
          | some .release_schema => .call child.self :: release_schema_trace child
          | none => []) ++
        [.free (.block child.self)] ++
        release_schema_loop_trace name.release.1 children
end

/-- The deallocations among a sequence of events. -/
def ReleaseEvent.frees : List ReleaseEvent → List FreeCall
  | [] => []
  | .call _ :: t => ReleaseEvent.frees t
  | .free f :: t => f :: ReleaseEvent.frees t

/-- The addresses of the nodes whose release callback a sequence of events
invokes. -/
def ReleaseEvent.calls : List ReleaseEvent → List Ptr
  | [] => []
  | .call p :: t => p :: ReleaseEvent.calls t
  | .free _ :: t => ReleaseEvent.calls t

/-- The heap block a `const char*` points into, if any. -/
def CStr.block : CStr → List Ptr
  | .heap p _ => [p]
  | _ => []

mutual
/-- The heap blocks a node reaches besides the node itself: its strings, its
children array, the nodes below it and what they reach, and its dictionary. -/
def ArrowSchema.owned : ArrowSchema → List Ptr
  | .mk _ format name metadata _ children_ptr children dictionary _ =>
      format.block ++ name.block ++ metadata.block ++
        (if children_ptr = nullptr then [] else [children_ptr]) ++
        blocks_list children ++
        match dictionary with
        | none => []
        | some d => ArrowSchema.self d :: ArrowSchema.owned d
/-- The heap blocks of a list of nodes: each node and what it reaches. -/
def blocks_list : List ArrowSchema → List Ptr
  | [] => []
  | c :: cs => ArrowSchema.self c :: ArrowSchema.owned c ++ blocks_list cs
end

/-- Every heap block of a schema tree: the node and what it reaches.  The tree
is a tree of heap objects when no block occurs twice in this list. -/
def ArrowSchema.blocks (s : ArrowSchema) : List Ptr := s.self :: s.owned

/-- `ReleasedBy s d`: node `d` lies below `s` along children links, and `d` and
every node between `s` and `d` still hold a release pointer. -/
inductive ReleasedBy : ArrowSchema → ArrowSchema → Prop where
  | direct {s c : ArrowSchema} :
      c ∈ s.children → c.release = some .release_schema → ReleasedBy s c
  | through {s c d : ArrowSchema} :
      c ∈ s.children → c.release = some .release_schema → ReleasedBy c d → ReleasedBy s d


/-! ## The exported array: `release_array` -/

/-- A `ColumnBuffer` on the heap together with the control block of the
`std::shared_ptr`s that own it: `use_count` is the number of shared pointers
owning it, `deleted` the number of times its destructor has run (0 while it is
alive). -/
structure SharedColumnBuffer where
  name : String
  use_count : Nat
  deleted : Nat
  deriving DecidableEq, Repr

/-- The `ColumnBuffer`s of the program, by address. -/
abbrev ColumnBuffers := Ptr → SharedColumnBuffer

/-- Destruction of one `std::shared_ptr<ColumnBuffer>` that owns the
`ColumnBuffer` at `cb`: the use count drops by one, and the `ColumnBuffer` is
deleted when this was the last owner. -/
def shared_ptr_destroy (buffers : ColumnBuffers) (cb : Ptr) : ColumnBuffers :=
  fun q =>
    if q = cb then
      { name := (buffers cb).name
        use_count := (buffers cb).use_count - 1
        deleted := if (buffers cb).use_count = 1 then (buffers cb).deleted + 1
          else (buffers cb).deleted }
    else buffers q

/-- The `ArrowBuffer` of `arrow_adapter.h`, allocated with `new` at `self`:
its member `buffer_` is a shared pointer owning the `ColumnBuffer` at the
given address. -/
structure ArrowBuffer where
  self : Ptr
  buffer_ : Ptr
  deriving DecidableEq, Repr

/-- The release callbacks an array node of this program can carry. -/
inductive ArrayReleaseCallback where
  | release_array
  deriving DecidableEq, Repr

/-- The dictionary `ArrowArray` of an array, as far as `release_array` looks at
it: its address, its `buffers` pointer and its release pointer. -/
structure ArrowArrayDictionary where
  self : Ptr
  buffers : Ptr
  release : Option ArrayReleaseCallback
  deriving DecidableEq, Repr

/-- A `struct ArrowArray`, as far as `release_array` looks at it: the address of
the `buffers` array, the dictionary (`none` for a null pointer), the release
pointer, and the `ArrowBuffer` that `private_data` points to (`none` for a
null pointer). -/
structure ArrowArray where
  buffers : Ptr
  dictionary : Option ArrowArrayDictionary
  release : Option ArrayReleaseCallback
  private_data : Option ArrowBuffer
  deriving DecidableEq, Repr

/-- `ArrowAdapter::release_array(array)`: the array as the call leaves it, the
`ColumnBuffer`s after the call, and the log of the calls of `free` and
`delete`.  The trace message dereferences `private_data`, so a null
`private_data` has no defined behaviour; `delete arrow_buffer` destroys the
member `buffer_` and frees the `ArrowBuffer`. -/
def release_array (array : ArrowArray) (buffers : ColumnBuffers) :
    Except Failure (ArrowArray × ColumnBuffers × List FreeCall) :=
  match array.private_data with
  | none => .error .undefined_behavior
  | some arrow_buffer =>
      let buffers := shared_ptr_destroy buffers arrow_buffer.buffer_
      let log := [FreeCall.block arrow_buffer.self] ++ free array.buffers
      match array.dictionary with
      | none =>
          .ok ({ array with release := none }, buffers, log)
      | some dict =>
          let log := log ++ free dict.buffers
          let dict := { dict with buffers := nullptr }
          let log := log ++ (if dict.release.isSome then [.block dict.self] else [])
          .ok ({ array with dictionary := some dict, release := none }, buffers, log)

/-- A harness that invokes `release_array` on each array of a list in turn and
returns the `ColumnBuffer`s afterwards. -/
def release_arrays : List ArrowArray → ColumnBuffers → Except Failure ColumnBuffers
  | [], buffers => .ok buffers
  | array :: arrays, buffers =>
      match release_array array buffers with
      | .error e => .error e
      | .ok (_, buffers, _) => release_arrays arrays buffers


/-! ## The `create` binding of `SOMADataFrame` (`soma_dataframe.cc`) -/

/-- `py_schema.attr("metadata")` as the binding uses it: an object without a
`get` attribute (Python's `None`, which a schema without metadata gives), or a
mapping from byte-string keys to byte-string values (a schema's metadata has
no other keys and values). -/
inductive PyMetadata where
  | no_get
  | mapping (entries : List (String × String))
  deriving DecidableEq, Repr

/-- `py::hasattr(metadata, "get")`. -/
def PyMetadata.hasattr_get : PyMetadata → Bool
  | .no_get => false
  | .mapping _ => true

/-- `metadata.attr("get")(key)`: the value of the first entry with this key,
`none` standing for Python's `None`. -/
def PyMetadata.get : PyMetadata → String → Option String
  | .no_get, _ => none
  | .mapping entries, key => entries.lookup key

/-- The 64-bit pattern of `~x` for an `int64_t` whose pattern is `x`. -/
def bitnot64 (x : Nat) : Nat := 2 ^ 64 - 1 - x

/-- Body of the loop of the nullability pass for one child: the lookup of the
child's name (a null `name` cannot be turned into a Python string) and the
update of the child's `flags`. -/
def create_override_child (metadata : PyMetadata) : ArrowSchema → Except Failure ArrowSchema
  | .mk self format name md flags children_ptr children dictionary release =>
      match name.text with
      | none => .error .undefined_behavior
      | some key =>
          let val := metadata.get key
          if val ≠ none ∧ val = some "nullable" then
            .ok (.mk self format name md (flags ||| ARROW_FLAG_NULLABLE) children_ptr children
              dictionary release)
          else
            .ok (.mk self format name md (flags &&& bitnot64 ARROW_FLAG_NULLABLE) children_ptr
              children dictionary release)

/-- The loop `for (int64_t i = 0; i < schema.n_children; ++i)` of the
nullability pass, over the children not yet visited. -/
def create_override_loop (metadata : PyMetadata) :
    List ArrowSchema → Except Failure (List ArrowSchema)
  | [] => .ok []
  | child :: children =>
      match create_override_child metadata child with
      | .error e => .error e
      | .ok child =>
          match create_override_loop metadata children with
          | .error e => .error e
          | .ok children => .ok (child :: children)

/-- The nullability pass of the `create` binding (lines 64-78): with a
metadata object that has `get`, every child of the exported schema is
updated in place; otherwise nothing is done. -/
def create_override_nullable (metadata : PyMetadata) :
    ArrowSchema → Except Failure ArrowSchema
  | .mk self format name md flags children_ptr children dictionary release =>
      if metadata.hasattr_get then
        match create_override_loop metadata children with
        | .error e => .error e
        | .ok children =>
            .ok (.mk self format name md flags children_ptr children dictionary release)
      else
        .ok (.mk self format name md flags children_ptr children dictionary release)

/-- How the call of `SOMADataFrame::create` can end by an exception: with a
`std::out_of_range` (or a class derived from it), or with any other
`std::exception`; `what` is the text of `e.what()`. -/
inductive CppException where
  | out_of_range (what : String)
  | exception (what : String)
  deriving DecidableEq, Repr

/-- The Python exceptions the binding raises: `TypeError` from
`py::type_error`, and the generic error of `TPY_ERROR_LOC`. -/
inductive PyException where
  | type_error (msg : String)
  | generic_error (msg : String)
  deriving DecidableEq, Repr

/-- True for a Python `TypeError`. -/
def PyException.is_type_error : PyException → Bool
  | .type_error _ => true
  | .generic_error _ => false

/-- The text a Python exception carries. -/
def PyException.msg : PyException → String
  | .type_error m => m
  | .generic_error m => m

/-- Modelled from the spec: `common.h`, which defines the macro
`TPY_ERROR_LOC`, is not among the sources; the specification has every failure
other than the type mismatch reported as "a generic creation error" that keeps
the engine's diagnostic text. -/
def TPY_ERROR_LOC (m : String) : Except PyException Unit :=
  .error (.generic_error m)

/-- The `try` block of the `create` binding (lines 89-103) for a given outcome
of the call of `SOMADataFrame::create`. -/
def create_try (outcome : Except CppException Unit) : Except PyException Unit :=
  match outcome with
  | .ok () => .ok ()
  | .error (.out_of_range what) => .error (.type_error what)
  | .error (.exception what) => TPY_ERROR_LOC what

/-- The Python schema object handed to the binding: what `_export_to_c` writes
into the `ArrowSchema` on the stack, and its `metadata` attribute. -/
structure PySchema where
  _export_to_c : ArrowSchema
  metadata : PyMetadata

/-- How the binding can fail: by undefined behaviour in the nullability pass,
or by raising a Python exception. -/
inductive CreateFailure where
  | undefined_behavior
  | raised (e : PyException)
  deriving DecidableEq, Repr

/-- The `create` binding of `load_soma_dataframe`: the nullability pass on the
exported schema, then the call of `SOMADataFrame::create` on the result inside
the `try` block.  `SOMADataFrame_create` is the outcome of that call as a
function of the schema it is given, the other arguments being fixed. -/
def create (SOMADataFrame_create : ArrowSchema → Except CppException Unit)
    (py_schema : PySchema) : Except CreateFailure Unit :=
  match create_override_nullable py_schema.metadata py_schema._export_to_c with
  | .error _ => .error .undefined_behavior
  | .ok schema =>
      match create_try (SOMADataFrame_create schema) with
      | .ok () => .ok ()
      | .error e => .error (.raised e)


/-! ## The query cursor (`next_results` / `read_next`) -/

/-- Modelled from the spec: the storage engine is a black box outside the
sources; for a fixed array and a fixed query configuration it answers the
successive submissions with pages, reporting each as "incomplete" (more data
follows, resubmit) or "complete" (no more data after this page).  A run of
the engine is given by the row counts of its incomplete pages, in order, and
the row count of the page it reports complete. -/
structure EngineRun where
  incomplete : List Nat
  complete : Nat
  deriving DecidableEq, Repr

/-- Modelled from the spec: the full result of a query is the ordered
concatenation of the engine's pages until exhaustion, so the number of rows
matching the configured predicates and id selections is the sum of their row
counts. -/
def EngineRun.total_rows (run : EngineRun) : Nat :=
  run.incomplete.sum + run.complete

/-- Modelled from the spec: the states of the cursor between two calls, from
the state machine `Created -> Submitting -> (PageReady <-> Submitting) ->
Exhausted` (`Submitting` only occurs inside a call). -/
inductive CursorState where
  | Created
  | PageReady
  | Exhausted
  deriving DecidableEq, Repr

/-- Modelled from the spec: a `QueryCursor` on a fixed array and query
configuration: its state and what the engine still holds for it. -/
structure QueryCursor where
  state : CursorState
  engine : EngineRun
  deriving DecidableEq, Repr

/-- Modelled from the spec: `SOMAArray::read_next` / `next_results`, whose
definition is not among the sources (only the declaration in
`soma_dense_ndarray.h` and the tests are).  An exhausted cursor returns the
end-of-results signal (`none`).  Otherwise the call submits once: an
incomplete page is delivered and the cursor stays ready to resubmit; a
complete page without rows exhausts the cursor and gives the end-of-results
signal; a complete page with rows is delivered once, and the next submission
finds nothing left. -/
def read_next (cursor : QueryCursor) : Option Nat × QueryCursor :=
  match cursor.state with
  | .Exhausted => (none, cursor)
  | _ =>
      match cursor.engine.incomplete with
      | rows :: rest =>
          (some rows, { state := .PageReady,
                        engine := { incomplete := rest, complete := cursor.engine.complete } })
      | [] =>
          if cursor.engine.complete = 0 then
            (none, { state := .Exhausted, engine := cursor.engine })
          else
            (some cursor.engine.complete,
              { state := .PageReady, engine := { incomplete := [], complete := 0 } })

/-- The loop of the tests in `unit_soma.cc`,
`while (auto results = sq->next_results()) total_cells += num_cells;`, run for
at most `fuel` calls: the total, the number of calls made, and the cursor,
or `none` when the end-of-results signal has not come within `fuel` calls. -/
def total_cells : Nat → QueryCursor → Option (Nat × Nat × QueryCursor)
  | 0, _ => none
  | fuel + 1, cursor =>
      match read_next cursor with
      | (none, cursor) => some (0, 1, cursor)
      | (some num_cells, cursor) =>
          match total_cells fuel cursor with
          | none => none
          | some (total, calls, cursor) => some (num_cells + total, calls + 1, cursor)

/-- A cursor freshly created on an engine run. -/
def QueryCursor.create (run : EngineRun) : QueryCursor :=
  { state := .Created, engine := run }


/-! ## Theorems: `to_arrow_format` -/

/-- The table lookup, computed from what `to_arrow_format` returns for the two
values of `use_large`. -/
theorem typeCodeTable_lookup (datatype : tiledb_datatype_t) :
    typeCodeTable.lookup datatype =
      match to_arrow_format datatype false, to_arrow_format datatype true with
      | .ok small, .ok large => some (small, large)
      | _, _ => none := by
  cases datatype <;> rfl

/-- Membership in the table, computed from what `to_arrow_format` returns. -/
theorem inTypeCodeTable_eq (datatype : tiledb_datatype_t) (use_large : Bool) :
    inTypeCodeTable datatype =
      match to_arrow_format datatype use_large with
      | .ok _ => true
      | .error _ => false := by
  cases datatype <;> cases use_large <;> rfl

/-- The failure of `to_arrow_format`, when it fails, is the unsupported-datatype
error. -/
theorem to_arrow_format_error (datatype : tiledb_datatype_t) (use_large : Bool) (e : Failure)
    (h : to_arrow_format datatype use_large = .error e) :
    e = .TileDBSOMAError
      ("ArrowAdapter: Unsupported TileDB datatype: " ++ type_to_str datatype ++ " ") := by
  cases datatype <;> cases use_large <;> first | (cases h; rfl) | cases h

/-- C1: `to_arrow_format` reproduces the type-code table: every fixed-width
entry gives its listed code for either value of `use_large`; ASCII/UTF8 strings
give "U" and byte/blob give "Z" when `use_large` is true, which is also the
default, and "u" and "z" when it is false; and the same holds entry by entry
for the table `typeCodeTable`. -/
theorem to_arrow_format_reproduces_table :
    (∀ use_large : Bool,
      to_arrow_format TILEDB_BOOL use_large = .ok "b" ∧
      to_arrow_format TILEDB_INT32 use_large = .ok "i" ∧
      to_arrow_format TILEDB_INT64 use_large = .ok "l" ∧
      to_arrow_format TILEDB_FLOAT32 use_large = .ok "f" ∧
      to_arrow_format TILEDB_FLOAT64 use_large = .ok "g" ∧
      to_arrow_format TILEDB_INT8 use_large = .ok "c" ∧
      to_arrow_format TILEDB_UINT8 use_large = .ok "C" ∧
      to_arrow_format TILEDB_INT16 use_large = .ok "s" ∧
      to_arrow_format TILEDB_UINT16 use_large = .ok "S" ∧
      to_arrow_format TILEDB_UINT32 use_large = .ok "I" ∧
      to_arrow_format TILEDB_UINT64 use_large = .ok "L" ∧
      to_arrow_format TILEDB_TIME_SEC use_large = .ok "tts" ∧
      to_arrow_format TILEDB_TIME_MS use_large = .ok "ttm" ∧
      to_arrow_format TILEDB_TIME_US use_large = .ok "ttu" ∧
      to_arrow_format TILEDB_TIME_NS use_large = .ok "ttn" ∧
      to_arrow_format TILEDB_DATETIME_SEC use_large = .ok "tss:" ∧
      to_arrow_format TILEDB_DATETIME_MS use_large = .ok "tsm:" ∧
      to_arrow_format TILEDB_DATETIME_US use_large = .ok "tsu:" ∧
      to_arrow_format TILEDB_DATETIME_NS use_large = .ok "tsn:") ∧
    (to_arrow_format TILEDB_STRING_ASCII true = .ok "U" ∧
      to_arrow_format TILEDB_STRING_UTF8 true = .ok "U" ∧
      to_arrow_format TILEDB_CHAR true = .ok "Z" ∧
      to_arrow_format TILEDB_BLOB true = .ok "Z") ∧
    (to_arrow_format TILEDB_STRING_ASCII = .ok "U" ∧
      to_arrow_format TILEDB_STRING_UTF8 = .ok "U" ∧
      to_arrow_format TILEDB_CHAR = .ok "Z" ∧
      to_arrow_format TILEDB_BLOB = .ok "Z") ∧
    (to_arrow_format TILEDB_STRING_ASCII false = .ok "u" ∧
      to_arrow_format TILEDB_STRING_UTF8 false = .ok "u" ∧
      to_arrow_format TILEDB_CHAR false = .ok "z" ∧
      to_arrow_format TILEDB_BLOB false = .ok "z") ∧
    (∀ (datatype : tiledb_datatype_t) (small large : String) (use_large : Bool),
      typeCodeTable.lookup datatype = some (small, large) ↔
        (inTypeCodeTable datatype = true ∧
          to_arrow_format datatype false = .ok small ∧
          to_arrow_format datatype true = .ok large ∧
          to_arrow_format datatype use_large = .ok (if use_large then large else small))) := by
  refine ⟨?_, ?_, ?_, ?_, ?_⟩
  · intro use_large
    cases use_large <;> simp [to_arrow_format]
  · simp [to_arrow_format]
  · simp [to_arrow_format]
  · simp [to_arrow_format]
  · intro datatype small large use_large
    rw [typeCodeTable_lookup, inTypeCodeTable_eq datatype use_large]
    cases datatype <;> cases use_large <;> simp [to_arrow_format, eq_comm] <;>
      (intro hs _; exact hs)

/-- C2: `to_arrow_format` throws the unsupported-datatype error exactly for the
datatypes without an entry in the type-code table, whatever `use_large` is,
and returns a format code exactly for the datatypes with an entry. -/
theorem to_arrow_format_throws_iff_not_in_table :
    ∀ (datatype : tiledb_datatype_t) (use_large : Bool),
      (to_arrow_format datatype use_large =
          .error (.TileDBSOMAError
            ("ArrowAdapter: Unsupported TileDB datatype: " ++ type_to_str datatype ++ " "))
        ↔ inTypeCodeTable datatype = false) ∧
      ((∃ e, to_arrow_format datatype use_large = .error e) ↔ inTypeCodeTable datatype = false) ∧
      ((∃ code, to_arrow_format datatype use_large = .ok code) ↔
        inTypeCodeTable datatype = true) := by
  intro datatype use_large
  rw [inTypeCodeTable_eq datatype use_large]
  cases datatype <;> cases use_large <;> simp [to_arrow_format]

/-! ## Theorems: the bit-packing loop -/

/-- One round of the packing loop with a shift count below 32. -/
theorem pack_bits_cons (b : Bool) (data : List Bool) (i src : Nat) (hi : i < 32) :
    pack_bits (b :: data) i src =
      pack_bits data (i + 1) ((src ||| (b.toNat <<< i) % 2 ^ 32) % 256) := by
  simp only [pack_bits, shl_int, hi, if_true]

/-- One round of the packing loop with a shift count of 32 or more. -/
theorem pack_bits_cons_undefined (b : Bool) (data : List Bool) (i src : Nat) (hi : 32 ≤ i) :
    pack_bits (b :: data) i src = .error .undefined_behavior := by
  have : ¬ i < 32 := by omega
  simp only [pack_bits, shl_int, this, if_false]

/-- One round of the packing loop, bit by bit. -/
theorem pack_step_testBit (b : Bool) (i src j : Nat) (hi : i < 32) :
    ((src ||| (b.toNat <<< i) % 2 ^ 32) % 256).testBit j =
      (decide (j < 8) && (src.testBit j || (decide (j = i) && b))) := by
  have h256 : (256 : Nat) = 2 ^ 8 := rfl
  rw [h256, Nat.testBit_mod_two_pow, Nat.testBit_or, Nat.testBit_mod_two_pow,
    Nat.testBit_shiftLeft, Nat.testBit_bool_to_nat]
  by_cases hj : j = i
  · subst hj; simp [hi]
  · by_cases hge : j ≥ i
    · have : j - i ≠ 0 := by omega
      simp [hj, this]
    · simp [hj, hge]

/-- The packing loop started at index `i` with at most `8 - i` values left and
an accumulator without bits at or above `i`: it returns, and bit `j` of the
result is the accumulator's below `i` and value `j - i` from `i` on. -/
theorem pack_bits_testBit (data : List Bool) :
    ∀ (i src : Nat), i + data.length ≤ 8 → (∀ j, i ≤ j → src.testBit j = false) →
      ∃ r, pack_bits data i src = .ok r ∧
        ∀ j, r.testBit j = if j < i then src.testBit j else data.getD (j - i) false := by
  induction data with
  | nil =>
      intro i src _ hz
      refine ⟨src, rfl, fun j => ?_⟩
      by_cases hj : j < i
      · simp [hj]
      · simp [hj, hz j (by omega)]
  | cons b data ih =>
      intro i src hlen hz
      have hlen' : i + data.length + 1 ≤ 8 := by simpa [Nat.add_assoc] using hlen
      have hi : i < 32 := by omega
      obtain ⟨r, hr, hbits⟩ := ih (i + 1) ((src ||| (b.toNat <<< i) % 2 ^ 32) % 256)
        (by omega)
        (by
          intro j hj
          rw [pack_step_testBit b i src j hi, hz j (by omega)]
          have : j ≠ i := by omega
          simp [this])
      refine ⟨r, ?_, fun j => ?_⟩
      · rw [pack_bits_cons b data i src hi]; exact hr
      · rw [hbits j, pack_step_testBit b i src j hi]
        by_cases h1 : j < i
        · have h2 : j < i + 1 := by omega
          have h3 : j ≠ i := by omega
          have h4 : j < 8 := by omega
          simp [h1, h2, h3, h4]
        · by_cases h2 : j = i
          · subst h2
            have h4 : j < 8 := by omega
            simp [h4, hz j (Nat.le_refl j)]
          · have h3 : ¬ j < i + 1 := by omega
            obtain ⟨k, hk⟩ : ∃ k, j - i = k + 1 := ⟨j - i - 1, by omega⟩
            have h5 : j - (i + 1) = k := by omega
            simp [h1, h3, hk, h5]

/-- The packing loop keeps a `uint8_t` accumulator below 256. -/
theorem pack_bits_lt (data : List Bool) :
    ∀ (i src r : Nat), src < 256 → pack_bits data i src = .ok r → r < 256 := by
  induction data with
  | nil =>
      intro i src r hsrc h
      simp [pack_bits] at h
      omega
  | cons b data ih =>
      intro i src r _ h
      by_cases hi : i < 32
      · rw [pack_bits_cons b data i src hi] at h
        exact ih (i + 1) _ r (Nat.mod_lt _ (by decide)) h
      · rw [pack_bits_cons_undefined b data i src (by omega)] at h
        cases h

/-- Values at indices 8 to 31 leave the accumulator as it is. -/
theorem pack_bits_high (data : List Bool) :
    ∀ (i src : Nat), 8 ≤ i → i + data.length ≤ 32 → src < 256 →
      pack_bits data i src = .ok src := by
  induction data with
  | nil => intro i src _ _ _; rfl
  | cons b data ih =>
      intro i src h8 hlen hsrc
      have hlen' : i + data.length + 1 ≤ 32 := by simpa [Nat.add_assoc] using hlen
      have hi : i < 32 := by omega
      have hstep : (src ||| (b.toNat <<< i) % 2 ^ 32) % 256 = src := by
        apply Nat.eq_of_testBit_eq
        intro j
        rw [pack_step_testBit b i src j hi]
        by_cases hj : j < 8
        · have : j ≠ i := by omega
          simp [hj, this]
        · have hz : src.testBit j = false := by
            apply Nat.testBit_lt_two_pow
            calc src < 2 ^ 8 := hsrc
              _ ≤ 2 ^ j := Nat.pow_le_pow_right (by decide) (by omega)
          simp [hj, hz]
      rw [pack_bits_cons b data i src hi, hstep]
      exact ih (i + 1) src (by omega) (by omega) hsrc

/-- The packing loop over a concatenation runs over the first part and goes on
over the second from where the first stopped. -/
theorem pack_bits_append (xs ys : List Bool) :
    ∀ (i src : Nat), pack_bits (xs ++ ys) i src =
      match pack_bits xs i src with
      | .error e => .error e
      | .ok s => pack_bits ys (i + xs.length) s := by
  induction xs with
  | nil => intro i src; simp [pack_bits]
  | cons b xs ih =>
      intro i src
      rw [List.cons_append]
      by_cases hi : i < 32
      · rw [pack_bits_cons b (xs ++ ys) i src hi, pack_bits_cons b xs i src hi, ih]
        have : i + 1 + xs.length = i + (b :: xs).length := by simp; omega
        rw [this]
      · rw [pack_bits_cons_undefined b (xs ++ ys) i src (by omega),
          pack_bits_cons_undefined b xs i src (by omega)]

/-- A shift count of 32 or more is reached as soon as the loop has values left
beyond index 31; the loop then has no defined result. -/
theorem pack_bits_undefined (data : List Bool) :
    ∀ (i src : Nat), data ≠ [] → 32 < i + data.length →
      pack_bits data i src = .error .undefined_behavior := by
  induction data with
  | nil => intro i src h; exact absurd rfl h
  | cons b data ih =>
      intro i src _ h
      have hlen : 32 < i + data.length + 1 := by simpa [Nat.add_assoc] using h
      by_cases hi : i < 32
      · rw [pack_bits_cons b data i src hi]
        have hne : data ≠ [] := by
          intro hnil
          subst hnil
          simp at hlen
          omega
        exact ih (i + 1) _ hne (by omega)
      · exact pack_bits_cons_undefined b data i src (by omega)

/-- The packing loop never throws: when it has no result, the cause is the
undefined shift. -/
theorem pack_bits_error (data : List Bool) :
    ∀ (i src : Nat) (e : Failure), pack_bits data i src = .error e → e = .undefined_behavior := by
  induction data with
  | nil => intro i src e h; cases h
  | cons b data ih =>
      intro i src e h
      by_cases hi : i < 32
      · rw [pack_bits_cons b data i src hi] at h
        exact ih (i + 1) _ e h
      · rw [pack_bits_cons_undefined b data i src (by omega)] at h
        cases h
        rfl

/-! ## Theorems: memory -/

/-- Every live address is below the address the allocator hands out next. -/
theorem Heap.lt_fresh (h : Heap) : ∀ p ∈ h, p < Heap.fresh h := by
  induction h with
  | nil => intro p hp; cases hp
  | cons q h ih =>
      intro p hp
      show p < max q (List.foldr max 0 h) + 1
      rcases List.mem_cons.mp hp with hq | hq
      · subst hq
        exact Nat.lt_succ_of_le (Nat.le_max_left _ _)
      · have hlt : p < List.foldr max 0 h + 1 := ih p hq
        exact Nat.lt_succ_of_le (Nat.le_trans (Nat.le_of_lt_succ hlt) (Nat.le_max_right _ _))

/-- The address the allocator hands out is not live. -/
theorem Heap.fresh_not_mem (h : Heap) : h.fresh ∉ h := by
  intro hmem
  exact Nat.lt_irrefl _ (Heap.lt_fresh h _ hmem)

/-- The address the allocator hands out is not null. -/
theorem Heap.fresh_ne_null (h : Heap) : h.fresh ≠ nullptr := by
  simp [Heap.fresh, nullptr]

/-! ## Theorems: `_get_data_and_length` -/

/-- The storage of a vector of `n` values of `w` bytes each has `n * w` bytes. -/
theorem flatten_length_uniform (w : Nat) (vs : List (List Nat)) (hwf : ∀ v ∈ vs, v.length = w) :
    vs.flatten.length = vs.length * w := by
  induction vs with
  | nil => simp
  | cons v vs ih =>
      have hv : v.length = w := hwf v (List.mem_cons_self _ _)
      have hvs : ∀ u ∈ vs, u.length = w := fun u hu => hwf u (List.mem_cons_of_mem _ hu)
      simp [ih hvs, hv, Nat.add_mul, Nat.add_comm]

/-- Value `k` of a vector of `w`-byte values occupies bytes `k * w` to
`k * w + w - 1` of the vector's storage. -/
theorem flatten_slice_uniform (w : Nat) (vs : List (List Nat)) (hwf : ∀ v ∈ vs, v.length = w) :
    ∀ (k : Nat) (v : List Nat), vs[k]? = some v → (vs.flatten.drop (k * w)).take w = v := by
  induction vs with
  | nil => intro k v h; simp at h
  | cons u vs ih =>
      intro k v h
      have hu : u.length = w := hwf u (List.mem_cons_self _ _)
      have hvs : ∀ x ∈ vs, x.length = w := fun x hx => hwf x (List.mem_cons_of_mem _ hx)
      cases k with
      | zero =>
          simp at h
          subst h
          simp [List.take_left' hu]
      | succ k =>
          simp at h
          have hk : (k + 1) * w = u.length + k * w := by rw [hu, Nat.add_mul]; omega
          rw [List.flatten_cons, hk, List.drop_append]
          exact ih hvs k v h

/-- C3: for a boolean enumeration with at most 8 values, `_get_data_and_length`
returns a freshly allocated buffer of exactly one byte and the element count
`n`; bit `i` of the byte (least-significant bit first) is value `i` for every
`i < n`, every bit at a position `≥ n` is 0, and the values
`[true, false, true]` give the byte `0b101`. -/
theorem get_data_and_length_bool_packs_lsb_first (h : Heap) (enmr : Enumeration) (dst : Ptr)
    (htype : enmr.type = TILEDB_BOOL) (hlen : enmr.as_vector_bool.length ≤ 8) :
    ∃ src : Nat,
      _get_data_and_length h enmr dst =
        .ok (({ ptr := h.fresh, bytes := [src] }, enmr.as_vector_bool.length), h.fresh :: h) ∧
      src < 256 ∧
      (∀ i, i < enmr.as_vector_bool.length →
        enmr.as_vector_bool[i]? = some (src.testBit i)) ∧
      (∀ i, enmr.as_vector_bool.length ≤ i → src.testBit i = false) ∧
      (enmr.as_vector_bool = [true, false, true] →
        src = 0b101 ∧ enmr.as_vector_bool.length = 3) := by
  obtain ⟨src, hsrc, hbits⟩ := pack_bits_testBit enmr.as_vector_bool 0 0 (by omega)
    (fun j _ => Nat.zero_testBit j)
  refine ⟨src, ?_, pack_bits_lt _ 0 0 src (by decide) hsrc, ?_, ?_, ?_⟩
  · simp [_get_data_and_length, htype, hsrc, malloc]
  · intro i hi
    have := hbits i
    simp only [Nat.not_lt_zero, if_false, Nat.sub_zero] at this
    rw [this, List.getD_eq_getElem?_getD, List.getElem?_eq_getElem hi]
    simp
  · intro i hi
    have := hbits i
    simp only [Nat.not_lt_zero, if_false, Nat.sub_zero] at this
    rw [this, List.getD_eq_getElem?_getD, List.getElem?_eq_none hi]
    simp
  · intro hv
    rw [hv] at hsrc
    have h5 : pack_bits [true, false, true] 0 0 = .ok 0b101 := rfl
    rw [h5] at hsrc
    cases hsrc
    exact ⟨rfl, by rw [hv]; rfl⟩

/-- Witness of C3: the enumeration `[true, false, true]`. -/
theorem get_data_and_length_bool_packs_lsb_first_witness :
    ∃ src : Nat,
      _get_data_and_length [] ⟨TILEDB_BOOL, [true, false, true], []⟩ 0 =
        .ok (({ ptr := 1, bytes := [src] }, 3), [1]) ∧
      src = 0b101 :=
  let ⟨src, hres, _, _, _, hex⟩ := get_data_and_length_bool_packs_lsb_first []
    ⟨TILEDB_BOOL, [true, false, true], []⟩ 0 rfl (by decide)
  ⟨src, hres, (hex rfl).1⟩

/-- C4 (as amended): for a boolean enumeration with more than 8 and at most 32
values, `_get_data_and_length` returns a one-byte buffer and the full length
as element count; the byte is what the first 8 values alone pack to (bit `i`
is value `i` for `i < 8`, no higher bit), so any two such enumerations that
agree on indices 0..7 give the same byte. -/
theorem get_data_and_length_bool_drops_values_past_eight (h : Heap) (enmr : Enumeration)
    (dst : Ptr) (htype : enmr.type = TILEDB_BOOL) (h8 : 8 < enmr.as_vector_bool.length)
    (h32 : enmr.as_vector_bool.length ≤ 32) :
    ∃ src : Nat,
      _get_data_and_length h enmr dst =
        .ok (({ ptr := h.fresh, bytes := [src] }, enmr.as_vector_bool.length), h.fresh :: h) ∧
      pack_bits (enmr.as_vector_bool.take 8) 0 0 = .ok src ∧
      (∀ i, i < 8 → enmr.as_vector_bool[i]? = some (src.testBit i)) ∧
      (∀ i, 8 ≤ i → src.testBit i = false) ∧
      (∀ (h2 : Heap) (enmr2 : Enumeration) (dst2 : Ptr), enmr2.type = TILEDB_BOOL →
        8 < enmr2.as_vector_bool.length → enmr2.as_vector_bool.length ≤ 32 →
        enmr2.as_vector_bool.take 8 = enmr.as_vector_bool.take 8 →
        _get_data_and_length h2 enmr2 dst2 =
          .ok (({ ptr := h2.fresh, bytes := [src] }, enmr2.as_vector_bool.length),
            h2.fresh :: h2)) := by
  have hlow : ∀ data : List Bool, 8 < data.length → data.length ≤ 32 →
      ∀ src, pack_bits (data.take 8) 0 0 = .ok src → pack_bits data 0 0 = .ok src := by
    intro data hd8 hd32 src hsrc
    have hsplit : data = data.take 8 ++ data.drop 8 := (List.take_append_drop 8 data).symm
    have htake : (data.take 8).length = 8 := by rw [List.length_take]; omega
    rw [hsplit, pack_bits_append, hsrc]
    simp only [htake]
    exact pack_bits_high (data.drop 8) 8 src (Nat.le_refl 8)
      (by rw [List.length_drop]; omega) (pack_bits_lt _ 0 0 src (by decide) hsrc)
  have htake : (enmr.as_vector_bool.take 8).length = 8 := by rw [List.length_take]; omega
  obtain ⟨src, hsrc, hbits⟩ := pack_bits_testBit (enmr.as_vector_bool.take 8) 0 0
    (by omega) (fun j _ => Nat.zero_testBit j)
  refine ⟨src, ?_, hsrc, ?_, ?_, ?_⟩
  · simp [_get_data_and_length, htype, hlow _ h8 h32 src hsrc, malloc]
  · intro i hi
    have := hbits i
    simp only [Nat.not_lt_zero, if_false, Nat.sub_zero] at this
    rw [this, List.getD_eq_getElem?_getD, List.getElem?_take_of_lt hi,
      List.getElem?_eq_getElem (by omega : i < enmr.as_vector_bool.length)]
    simp
  · intro i hi
    have := hbits i
    simp only [Nat.not_lt_zero, if_false, Nat.sub_zero] at this
    rw [this, List.getD_eq_getElem?_getD, List.getElem?_eq_none (by omega)]
    simp
  · intro h2 enmr2 dst2 htype2 h8' h32' hagree
    rw [← hagree] at hsrc
    simp [_get_data_and_length, htype2, hlow _ h8' h32' src hsrc, malloc]

/-- Witness of C4 (as amended): nine values, the ninth being `true`. -/
theorem get_data_and_length_bool_drops_values_past_eight_witness :
    ∃ src : Nat,
      _get_data_and_length []
          ⟨TILEDB_BOOL, [true, false, true, false, false, false, false, false, true], []⟩ 0 =
        .ok (({ ptr := 1, bytes := [src] }, 9), [1]) ∧
      pack_bits [true, false, true, false, false, false, false, false] 0 0 = .ok src :=
  let ⟨src, hres, hpack, _⟩ := get_data_and_length_bool_drops_values_past_eight []
    ⟨TILEDB_BOOL, [true, false, true, false, false, false, false, false, true], []⟩ 0 rfl
    (by decide) (by decide)
  ⟨src, hres, hpack⟩

/-- Counterexample to C4 as stated: with 33 boolean values (more than 8), the
last one `true`, the loop reaches `data[32] << 32`, a shift of a 32-bit `int`
by 32, and the call has no defined result: no one-byte buffer is returned. -/
theorem get_data_and_length_bool_thirty_three_values :
    8 < (Enumeration.mk TILEDB_BOOL (List.replicate 32 false ++ [true]) []).as_vector_bool.length ∧
    _get_data_and_length [] ⟨TILEDB_BOOL, List.replicate 32 false ++ [true], []⟩ 0 =
      .error .undefined_behavior ∧
    ¬ ∃ r, _get_data_and_length [] ⟨TILEDB_BOOL, List.replicate 32 false ++ [true], []⟩ 0 =
      .ok r := by
  have hres : _get_data_and_length [] ⟨TILEDB_BOOL, List.replicate 32 false ++ [true], []⟩ 0 =
      .error .undefined_behavior := rfl
  refine ⟨by decide, hres, ?_⟩
  rintro ⟨r, hr⟩
  rw [hres] at hr
  cases hr

/-- C5: for an enumeration of a supported non-boolean primitive type whose `n`
values each occupy `w` bytes, `_get_data_and_length` returns the element count
`n` and a buffer at a freshly allocated address (not live before, not null)
holding exactly `n * w` bytes: the values in their original order, value `k`
at bytes `k * w` to `k * w + w - 1`, each with its bytes unchanged. -/
theorem get_data_and_length_primitive_copies_values (h : Heap) (enmr : Enumeration) (dst : Ptr)
    (w : Nat) (hw : primitiveWidth enmr.type = some w)
    (hwf : ∀ v ∈ enmr.as_vector, v.length = w) :
    _get_data_and_length h enmr dst =
        .ok (({ ptr := h.fresh, bytes := enmr.as_vector.flatten }, enmr.as_vector.length),
          h.fresh :: h) ∧
      enmr.as_vector.flatten.length = enmr.as_vector.length * w ∧
      (∀ (k : Nat) (v : List Nat), enmr.as_vector[k]? = some v →
        (enmr.as_vector.flatten.drop (k * w)).take w = v) ∧
      h.fresh ∉ h ∧ h.fresh ≠ nullptr := by
  have hlen := flatten_length_uniform w enmr.as_vector hwf
  refine ⟨?_, hlen, flatten_slice_uniform w enmr.as_vector hwf, Heap.fresh_not_mem h,
    Heap.fresh_ne_null h⟩
  obtain ⟨type, bools, values⟩ := enmr
  simp only at hw hlen ⊢
  cases type <;> simp [primitiveWidth] at hw <;> subst hw <;>
    simp [_get_data_and_length, _fill_data_buffer, malloc, ← hlen]

/-- Witness of C5: an `int16` enumeration with the two values `0x0201` and
`0x0403` (little-endian bytes). -/
theorem get_data_and_length_primitive_copies_values_witness :
    _get_data_and_length [7] ⟨TILEDB_INT16, [], [[1, 2], [3, 4]]⟩ 0 =
        .ok (({ ptr := 8, bytes := [1, 2, 3, 4] }, 2), [8, 7]) ∧
      [1, 2, 3, 4].length = 2 * 2 :=
  let ⟨hres, hlen, _⟩ := get_data_and_length_primitive_copies_values [7]
    ⟨TILEDB_INT16, [], [[1, 2], [3, 4]]⟩ 0 2 rfl (by decide)
  ⟨hres, hlen⟩

/-- C6: `_get_data_and_length` throws the unsupported-datatype error exactly
when the enumeration's type is outside the list bool, int8, uint8, int16,
uint16, int32, uint32, int64, uint64, float32, float64; in particular it
throws for the two string types. -/
theorem get_data_and_length_throws_iff_unlisted (h : Heap) (enmr : Enumeration) (dst : Ptr) :
    (_get_data_and_length h enmr dst =
        .error (.TileDBSOMAError
          ("ArrowAdapter: Unsupported TileDB dict datatype: " ++ type_to_str enmr.type ++ " "))
      ↔ enmr.type ∉ enumerationTypeList) ∧
    ((∃ msg, _get_data_and_length h enmr dst = .error (.TileDBSOMAError msg))
      ↔ enmr.type ∉ enumerationTypeList) ∧
    (∀ bools values, ∃ msg,
      _get_data_and_length h ⟨TILEDB_STRING_ASCII, bools, values⟩ dst =
        .error (.TileDBSOMAError msg)) ∧
    (∀ bools values, ∃ msg,
      _get_data_and_length h ⟨TILEDB_STRING_UTF8, bools, values⟩ dst =
        .error (.TileDBSOMAError msg)) := by
  have hbool : ∀ (bools : List Bool) (values : List (List Nat)) (msg : String),
      _get_data_and_length h ⟨TILEDB_BOOL, bools, values⟩ dst ≠
        .error (.TileDBSOMAError msg) := by
    intro bools values msg hres
    cases hp : pack_bits bools 0 0 with
    | error e =>
        have he := pack_bits_error bools 0 0 e hp
        subst he
        simp [_get_data_and_length, hp] at hres
    | ok src =>
        simp [_get_data_and_length, hp, malloc] at hres
  refine ⟨?_, ?_, ?_, ?_⟩
  · obtain ⟨type, bools, values⟩ := enmr
    cases type
    case TILEDB_BOOL =>
      constructor
      · intro hres; exact absurd hres (hbool bools values _)
      · intro hmem; simp [enumerationTypeList] at hmem
    all_goals simp [_get_data_and_length, _fill_data_buffer, malloc, enumerationTypeList]
  · obtain ⟨type, bools, values⟩ := enmr
    cases type
    case TILEDB_BOOL =>
      constructor
      · rintro ⟨msg, hres⟩; exact absurd hres (hbool bools values msg)
      · intro hmem; simp [enumerationTypeList] at hmem
    all_goals simp [_get_data_and_length, _fill_data_buffer, malloc, enumerationTypeList]
  · intro bools values
    exact ⟨_, rfl⟩
  · intro bools values
    exact ⟨_, rfl⟩

/-! ## Theorems: `tiledb_schema_to_arrow_schema` -/

/-- With the default `use_large`, `to_arrow_format` returns a code exactly when
the table has one, and then the table's large-offset code. -/
theorem to_arrow_format_default_eq_tableCode (datatype : tiledb_datatype_t) (code : String) :
    to_arrow_format datatype = .ok code ↔ tableCode datatype = some code := by
  unfold tableCode
  rw [typeCodeTable_lookup]
  cases datatype <;> simp [to_arrow_format, eq_comm]

/-- A datatype of the table has a table code. -/
theorem tableCode_of_inTypeCodeTable (datatype : tiledb_datatype_t)
    (h : inTypeCodeTable datatype = true) : ∃ code, tableCode datatype = some code := by
  rw [inTypeCodeTable_eq datatype true] at h
  cases hres : to_arrow_format datatype true with
  | error e => rw [hres] at h; cases h
  | ok code => exact ⟨code, (to_arrow_format_default_eq_tableCode datatype code).mp hres⟩

/-- The child the first loop builds for a dimension. -/
theorem dimension_child_eq (h : Heap) (dim : Dimension) (c : ArrowSchema) (h' : Heap)
    (hres : dimension_child h dim = .ok (c, h')) :
    ∃ code, tableCode dim.type = some code ∧
      c = .mk h.fresh (.static code) (.heap (Heap.fresh (h.fresh :: h)) dim.name) .null 0
        nullptr [] none (some .release_schema) ∧
      h' = Heap.fresh (h.fresh :: h) :: h.fresh :: h := by
  unfold dimension_child at hres
  cases hfmt : to_arrow_format dim.type with
  | error e => simp [malloc, hfmt] at hres
  | ok code =>
      simp [malloc, strdup, hfmt] at hres
      exact ⟨code, (to_arrow_format_default_eq_tableCode _ _).mp hfmt, hres.1.symm, hres.2.symm⟩

/-- The child the second loop builds for an attribute. -/
theorem attribute_child_eq (h : Heap) (attr : Attribute) (c : ArrowSchema) (h' : Heap)
    (hres : attribute_child h attr = .ok (c, h')) :
    ∃ code, tableCode attr.type = some code ∧
      c = .mk h.fresh (.static code) (.heap (Heap.fresh (h.fresh :: h)) attr.name) .null
        (if attr.nullable then ARROW_FLAG_NULLABLE else 0) nullptr [] none
        (some .release_schema) ∧
      h' = Heap.fresh (h.fresh :: h) :: h.fresh :: h := by
  unfold attribute_child at hres
  cases hfmt : to_arrow_format attr.type with
  | error e => simp [malloc, hfmt] at hres
  | ok code =>
      simp [malloc, strdup, hfmt] at hres
      exact ⟨code, (to_arrow_format_default_eq_tableCode _ _).mp hfmt, hres.1.symm, hres.2.symm⟩

/-- The first loop returns when every dimension type is in the table. -/
theorem dimension_child_ok (h : Heap) (dim : Dimension)
    (htab : inTypeCodeTable dim.type = true) :
    ∃ c h', dimension_child h dim = .ok (c, h') := by
  obtain ⟨code, hcode⟩ := tableCode_of_inTypeCodeTable dim.type htab
  have hfmt := (to_arrow_format_default_eq_tableCode dim.type code).mpr hcode
  refine ⟨.mk h.fresh (.static code) (.heap (Heap.fresh (h.fresh :: h)) dim.name) .null 0
    nullptr [] none (some .release_schema), Heap.fresh (h.fresh :: h) :: h.fresh :: h, ?_⟩
  simp [dimension_child, malloc, strdup, hfmt]

/-- The second loop returns when every attribute type is in the table. -/
theorem attribute_child_ok (h : Heap) (attr : Attribute)
    (htab : inTypeCodeTable attr.type = true) :
    ∃ c h', attribute_child h attr = .ok (c, h') := by
  obtain ⟨code, hcode⟩ := tableCode_of_inTypeCodeTable attr.type htab
  have hfmt := (to_arrow_format_default_eq_tableCode attr.type code).mpr hcode
  refine ⟨.mk h.fresh (.static code) (.heap (Heap.fresh (h.fresh :: h)) attr.name) .null
    (if attr.nullable then ARROW_FLAG_NULLABLE else 0) nullptr [] none
    (some .release_schema), Heap.fresh (h.fresh :: h) :: h.fresh :: h, ?_⟩
  simp [attribute_child, malloc, strdup, hfmt]

/-- The first loop returns when every dimension type is in the table. -/
theorem dimension_children_ok (dims : List Dimension) :
    ∀ h : Heap, (∀ dim ∈ dims, inTypeCodeTable dim.type = true) →
      ∃ cs h', dimension_children h dims = .ok (cs, h') := by
  induction dims with
  | nil => intro h _; exact ⟨[], h, rfl⟩
  | cons dim dims ih =>
      intro h htab
      obtain ⟨c, h1, hc⟩ := dimension_child_ok h dim (htab dim (List.mem_cons_self _ _))
      obtain ⟨cs, h2, hcs⟩ := ih h1 (fun d hd => htab d (List.mem_cons_of_mem _ hd))
      exact ⟨c :: cs, h2, by simp [dimension_children, hc, hcs]⟩

/-- The second loop returns when every attribute type is in the table. -/
theorem attribute_children_ok (attrs : List Attribute) :
    ∀ h : Heap, (∀ attr ∈ attrs, inTypeCodeTable attr.type = true) →
      ∃ cs h', attribute_children h attrs = .ok (cs, h') := by
  induction attrs with
  | nil => intro h _; exact ⟨[], h, rfl⟩
  | cons attr attrs ih =>
      intro h htab
      obtain ⟨c, h1, hc⟩ := attribute_child_ok h attr (htab attr (List.mem_cons_self _ _))
      obtain ⟨cs, h2, hcs⟩ := ih h1 (fun a ha => htab a (List.mem_cons_of_mem _ ha))
      exact ⟨c :: cs, h2, by simp [attribute_children, hc, hcs]⟩

/-- The children the first loop builds: one per dimension, in order, each a
leaf with the dimension's name in a heap string, the table's format code,
flags 0, no dictionary and the release callback set. -/
theorem dimension_children_spec (dims : List Dimension) :
    ∀ (h : Heap) (cs : List ArrowSchema) (h' : Heap),
      dimension_children h dims = .ok (cs, h') →
      cs.length = dims.length ∧
      ∀ (i : Nat) (dim : Dimension), dims[i]? = some dim →
        ∃ self p code, tableCode dim.type = some code ∧
          cs[i]? = some (.mk self (.static code) (.heap p dim.name) .null 0 nullptr [] none
            (some .release_schema)) := by
  induction dims with
  | nil =>
      intro h cs h' hres
      simp [dimension_children] at hres
      obtain ⟨hcs, _⟩ := hres
      subst hcs
      exact ⟨rfl, fun i dim hi => by simp at hi⟩
  | cons d dims ih =>
      intro h cs h' hres
      unfold dimension_children at hres
      cases hc : dimension_child h d with
      | error e => simp [hc] at hres
      | ok r =>
          obtain ⟨c, h1⟩ := r
          cases hcs : dimension_children h1 dims with
          | error e => simp [hc, hcs] at hres
          | ok r2 =>
              obtain ⟨cs2, h2⟩ := r2
              simp [hc, hcs] at hres
              obtain ⟨code, hcode, hceq, _⟩ := dimension_child_eq h d c h1 hc
              obtain ⟨hlen, hidx⟩ := ih h1 cs2 h2 hcs
              obtain ⟨hcons, _⟩ := hres
              subst hcons
              refine ⟨by simp [hlen], ?_⟩
              intro i dim hi
              cases i with
              | zero =>
                  simp at hi
                  subst hi
                  exact ⟨h.fresh, Heap.fresh (h.fresh :: h), code, hcode, by simp [hceq]⟩
              | succ i =>
                  simp at hi
                  obtain ⟨self, p, code', hcode', hget⟩ := hidx i dim hi
                  exact ⟨self, p, code', hcode', by simpa using hget⟩

/-- The children the second loop builds: one per attribute, in order, each a
leaf with the attribute's name in a heap string, the table's format code,
flags `ARROW_FLAG_NULLABLE` or 0 after the attribute's nullability, a null
dictionary pointer and the release callback set. -/
theorem attribute_children_spec (attrs : List Attribute) :
    ∀ (h : Heap) (cs : List ArrowSchema) (h' : Heap),
      attribute_children h attrs = .ok (cs, h') →
      cs.length = attrs.length ∧
      ∀ (i : Nat) (attr : Attribute), attrs[i]? = some attr →
        ∃ self p code, tableCode attr.type = some code ∧
          cs[i]? = some (.mk self (.static code) (.heap p attr.name) .null
            (if attr.nullable then ARROW_FLAG_NULLABLE else 0) nullptr [] none
            (some .release_schema)) := by
  induction attrs with
  | nil =>
      intro h cs h' hres
      simp [attribute_children] at hres
      obtain ⟨hcs, _⟩ := hres
      subst hcs
      exact ⟨rfl, fun i attr hi => by simp at hi⟩
  | cons a attrs ih =>
      intro h cs h' hres
      unfold attribute_children at hres
      cases hc : attribute_child h a with
      | error e => simp [hc] at hres
      | ok r =>
          obtain ⟨c, h1⟩ := r
          cases hcs : attribute_children h1 attrs with
          | error e => simp [hc, hcs] at hres
          | ok r2 =>
              obtain ⟨cs2, h2⟩ := r2
              simp [hc, hcs] at hres
              obtain ⟨code, hcode, hceq, _⟩ := attribute_child_eq h a c h1 hc
              obtain ⟨hlen, hidx⟩ := ih h1 cs2 h2 hcs
              obtain ⟨hcons, _⟩ := hres
              subst hcons
              refine ⟨by simp [hlen], ?_⟩
              intro i attr hi
              cases i with
              | zero =>
                  simp at hi
                  subst hi
                  exact ⟨h.fresh, Heap.fresh (h.fresh :: h), code, hcode, by simp [hceq]⟩
              | succ i =>
                  simp at hi
                  obtain ⟨self, p, code', hcode', hget⟩ := hidx i attr hi
                  exact ⟨self, p, code', hcode', by simpa using hget⟩

/-- A returned root: its fields, and its children as the results of the two
loops, dimensions first. -/
theorem tiledb_schema_to_arrow_schema_eq (h : Heap) (schema : ArraySchema) (root : ArrowSchema)
    (h' : Heap) (hres : tiledb_schema_to_arrow_schema h schema = .ok (root, h')) :
    ∃ (dims attrs : List ArrowSchema) (h1 h2 : Heap),
      dimension_children (Heap.fresh (h.fresh :: h) :: h.fresh :: h) schema.dimensions =
        .ok (dims, h1) ∧
      attribute_children h1 schema.attributes = .ok (attrs, h2) ∧
      root = .mk h.fresh (.static "+s") .null .null 0 (Heap.fresh (h.fresh :: h))
        (dims ++ attrs) none (some .release_schema) ∧
      h' = h2 := by
  unfold tiledb_schema_to_arrow_schema at hres
  simp only [malloc] at hres
  cases hd : dimension_children (Heap.fresh (h.fresh :: h) :: h.fresh :: h) schema.dimensions with
  | error e => simp [hd] at hres
  | ok r =>
      obtain ⟨dims, h1⟩ := r
      cases ha : attribute_children h1 schema.attributes with
      | error e => simp [hd, ha] at hres
      | ok r2 =>
          obtain ⟨attrs, h2⟩ := r2
          simp [hd, ha] at hres
          exact ⟨dims, attrs, h1, h2, rfl, ha, hres.1.symm, hres.2.symm⟩

/-- C7: for an engine schema whose dimension and attribute types are all in the
type-code table, `tiledb_schema_to_arrow_schema` returns a root with format
"+s" and exactly `d + a` children; child `i` (`i < d`) carries the name and
the table's format code of dimension `i`, child `d + j` (`j < a`) those of
attribute `j`.  Nothing is asked of `d` and `a`, so `d = 0` and `a = 0` are
included. -/
theorem tiledb_schema_to_arrow_schema_children (h : Heap) (schema : ArraySchema)
    (hd : ∀ dim ∈ schema.dimensions, inTypeCodeTable dim.type = true)
    (ha : ∀ attr ∈ schema.attributes, inTypeCodeTable attr.type = true) :
    ∃ root h', tiledb_schema_to_arrow_schema h schema = .ok (root, h') ∧
      root.format = .static "+s" ∧
      root.n_children = schema.dimensions.length + schema.attributes.length ∧
      (∀ (i : Nat) (dim : Dimension), schema.dimensions[i]? = some dim →
        ∃ c code, root.children[i]? = some c ∧ c.name.text = some dim.name ∧
          tableCode dim.type = some code ∧ c.format = .static code) ∧
      (∀ (j : Nat) (attr : Attribute), schema.attributes[j]? = some attr →
        ∃ c code, root.children[schema.dimensions.length + j]? = some c ∧
          c.name.text = some attr.name ∧
          tableCode attr.type = some code ∧ c.format = .static code) := by
  obtain ⟨dims, h1, hdims⟩ := dimension_children_ok schema.dimensions
    (Heap.fresh (h.fresh :: h) :: h.fresh :: h) hd
  obtain ⟨attrs, h2, hattrs⟩ := attribute_children_ok schema.attributes h1 ha
  obtain ⟨hdlen, hdidx⟩ := dimension_children_spec _ _ _ _ hdims
  obtain ⟨halen, haidx⟩ := attribute_children_spec _ _ _ _ hattrs
  refine ⟨.mk h.fresh (.static "+s") .null .null 0 (Heap.fresh (h.fresh :: h))
    (dims ++ attrs) none (some .release_schema), h2, ?_, rfl, ?_, ?_, ?_⟩
  · simp [tiledb_schema_to_arrow_schema, malloc, hdims, hattrs]
  · simp [ArrowSchema.n_children, ArrowSchema.children, hdlen, halen]
  · intro i dim hi
    obtain ⟨self, p, code, hcode, hget⟩ := hdidx i dim hi
    have hlt : i < dims.length := by
      rw [hdlen]
      exact (List.getElem?_eq_some_iff.mp hi).1
    refine ⟨(.mk self (.static code) (.heap p dim.name) .null 0 nullptr [] none (some .release_schema)),
      code, ?_, ?_, hcode, ?_⟩
    · show (dims ++ attrs)[i]? = _
      rw [List.getElem?_append_left hlt]
      exact hget
    · rfl
    · rfl
  · intro j attr hj
    obtain ⟨self, p, code, hcode, hget⟩ := haidx j attr hj
    refine ⟨(.mk self (.static code) (.heap p attr.name) .null
      (if attr.nullable then ARROW_FLAG_NULLABLE else 0) nullptr [] none (some .release_schema)),
      code, ?_, ?_, hcode, ?_⟩
    · show (dims ++ attrs)[schema.dimensions.length + j]? = _
      rw [← hdlen, List.getElem?_append_right (Nat.le_add_right _ _), Nat.add_sub_cancel_left]
      exact hget
    · rfl
    · rfl

/-- Witness of C7: one `int64` dimension and one nullable UTF8 attribute. -/
theorem tiledb_schema_to_arrow_schema_children_witness :
    ∃ root h',
      tiledb_schema_to_arrow_schema []
          ⟨[⟨"soma_joinid", TILEDB_INT64⟩], [⟨"label", TILEDB_STRING_UTF8, true, none⟩]⟩ =
        .ok (root, h') ∧
      root.format = .static "+s" ∧
      root.n_children = 1 + 1 :=
  let ⟨root, h', hres, hfmt, hn, _⟩ := tiledb_schema_to_arrow_schema_children []
    ⟨[⟨"soma_joinid", TILEDB_INT64⟩], [⟨"label", TILEDB_STRING_UTF8, true, none⟩]⟩
    (by decide) (by decide)
  ⟨root, h', hres, hfmt, hn⟩

/-- C8: in the schema `tiledb_schema_to_arrow_schema` returns, every dimension
child has `flags = 0` (nullable bit clear), and every attribute child has the
nullable bit set exactly when the engine attribute is nullable, and no bit
besides the nullable bit. -/
theorem tiledb_schema_to_arrow_schema_flags (h : Heap) (schema : ArraySchema)
    (root : ArrowSchema) (h' : Heap)
    (hres : tiledb_schema_to_arrow_schema h schema = .ok (root, h')) :
    (∀ (i : Nat) (dim : Dimension), schema.dimensions[i]? = some dim →
      ∃ c, root.children[i]? = some c ∧ c.flags = 0 ∧ c.flags &&& ARROW_FLAG_NULLABLE = 0) ∧
    (∀ (j : Nat) (attr : Attribute), schema.attributes[j]? = some attr →
      ∃ c, root.children[schema.dimensions.length + j]? = some c ∧
        c.flags = (if attr.nullable then ARROW_FLAG_NULLABLE else 0) ∧
        (c.flags &&& ARROW_FLAG_NULLABLE = ARROW_FLAG_NULLABLE ↔ attr.nullable = true) ∧
        c.flags &&& ARROW_FLAG_NULLABLE = c.flags) := by
  obtain ⟨dims, attrs, h1, h2, hdims, hattrs, hroot, _⟩ :=
    tiledb_schema_to_arrow_schema_eq h schema root h' hres
  obtain ⟨hdlen, hdidx⟩ := dimension_children_spec _ _ _ _ hdims
  obtain ⟨halen, haidx⟩ := attribute_children_spec _ _ _ _ hattrs
  subst hroot
  constructor
  · intro i dim hi
    obtain ⟨self, p, code, hcode, hget⟩ := hdidx i dim hi
    have hlt : i < dims.length := by
      rw [hdlen]
      exact (List.getElem?_eq_some_iff.mp hi).1
    refine ⟨(.mk self (.static code) (.heap p dim.name) .null 0 nullptr [] none (some .release_schema)),
      ?_, rfl, by simp [ArrowSchema.flags]⟩
    show (dims ++ attrs)[i]? = _
    rw [List.getElem?_append_left hlt]
    exact hget
  · intro j attr hj
    obtain ⟨self, p, code, hcode, hget⟩ := haidx j attr hj
    refine ⟨(.mk self (.static code) (.heap p attr.name) .null
      (if attr.nullable then ARROW_FLAG_NULLABLE else 0) nullptr [] none (some .release_schema)),
      ?_, rfl, ?_, ?_⟩
    · show (dims ++ attrs)[schema.dimensions.length + j]? = _
      rw [← hdlen, List.getElem?_append_right (Nat.le_add_right _ _), Nat.add_sub_cancel_left]
      exact hget
    · cases attr.nullable <;> simp [ArrowSchema.flags, ARROW_FLAG_NULLABLE]
    · cases attr.nullable <;> simp [ArrowSchema.flags, ARROW_FLAG_NULLABLE]

/-- Witness of C8: one dimension, then a nullable attribute: child 0 has
flags 0 and child 1 has exactly the nullable bit. -/
theorem tiledb_schema_to_arrow_schema_flags_witness :
    (∃ c, (ArrowSchema.mk 1 (.static "+s") .null .null 0 2
          [.mk 3 (.static "l") (.heap 4 "soma_joinid") .null 0 nullptr [] none
              (some .release_schema),
            .mk 5 (.static "U") (.heap 6 "label") .null 2 nullptr [] none
              (some .release_schema)]
          none (some .release_schema)).children[0]? = some c ∧
        c.flags = 0 ∧ c.flags &&& ARROW_FLAG_NULLABLE = 0) ∧
    (∃ c, (ArrowSchema.mk 1 (.static "+s") .null .null 0 2
          [.mk 3 (.static "l") (.heap 4 "soma_joinid") .null 0 nullptr [] none
              (some .release_schema),
            .mk 5 (.static "U") (.heap 6 "label") .null 2 nullptr [] none
              (some .release_schema)]
          none (some .release_schema)).children[1 + 0]? = some c ∧
        c.flags = ARROW_FLAG_NULLABLE) :=
  have hflags := tiledb_schema_to_arrow_schema_flags []
    ⟨[⟨"soma_joinid", TILEDB_INT64⟩], [⟨"label", TILEDB_STRING_UTF8, true, none⟩]⟩
    (.mk 1 (.static "+s") .null .null 0 2
      [.mk 3 (.static "l") (.heap 4 "soma_joinid") .null 0 nullptr [] none
          (some .release_schema),
        .mk 5 (.static "U") (.heap 6 "label") .null 2 nullptr [] none
          (some .release_schema)]
      none (some .release_schema))
    [6, 5, 4, 3, 2, 1] rfl
  ⟨hflags.1 0 ⟨"soma_joinid", TILEDB_INT64⟩ rfl,
    let ⟨c, hc, hfl, _⟩ := hflags.2 0 ⟨"label", TILEDB_STRING_UTF8, true, none⟩ rfl
    ⟨c, hc, hfl⟩⟩

/-- In the schema `tiledb_schema_to_arrow_schema` returns, the dictionary
pointer of every child is null, whether or not the engine attribute carries an
enumeration. -/
theorem tiledb_schema_to_arrow_schema_dictionary_null (h : Heap) (schema : ArraySchema)
    (root : ArrowSchema) (h' : Heap)
    (hres : tiledb_schema_to_arrow_schema h schema = .ok (root, h')) :
    ∀ c ∈ root.children, c.dictionary = none := by
  obtain ⟨dims, attrs, h1, h2, hdims, hattrs, hroot, _⟩ :=
    tiledb_schema_to_arrow_schema_eq h schema root h' hres
  obtain ⟨hdlen, hdidx⟩ := dimension_children_spec _ _ _ _ hdims
  obtain ⟨halen, haidx⟩ := attribute_children_spec _ _ _ _ hattrs
  subst hroot
  intro c hc
  rcases List.mem_append.mp hc with hmem | hmem
  · obtain ⟨i, hget⟩ := List.getElem?_of_mem hmem
    have hlt : i < dims.length := (List.getElem?_eq_some_iff.mp hget).1
    cases hdim : schema.dimensions[i]? with
    | none =>
        have := List.getElem?_eq_none_iff.mp hdim
        omega
    | some dim =>
        obtain ⟨self, p, code, _, hci⟩ := hdidx i dim hdim
        rw [hget] at hci
        cases hci
        rfl
  · obtain ⟨i, hget⟩ := List.getElem?_of_mem hmem
    have hlt : i < attrs.length := (List.getElem?_eq_some_iff.mp hget).1
    cases hattr : schema.attributes[i]? with
    | none =>
        have := List.getElem?_eq_none_iff.mp hattr
        omega
    | some attr =>
        obtain ⟨self, p, code, _, hci⟩ := haidx i attr hattr
        rw [hget] at hci
        cases hci
        rfl

/-- C9 (the code at the failing input): for a schema whose only attribute has
the enumeration `cell_type_enmr`, the node built for the attribute has a null
dictionary pointer. -/
theorem enumerated_attribute_gets_null_dictionary :
    tiledb_schema_to_arrow_schema []
        ⟨[], [⟨"cell_type", TILEDB_INT8, false, some "cell_type_enmr"⟩]⟩ =
      .ok (.mk 1 (.static "+s") .null .null 0 2
        [.mk 3 (.static "c") (.heap 4 "cell_type") .null 0 nullptr [] none
          (some .release_schema)]
        none (some .release_schema), [4, 3, 2, 1]) ∧
    (ArrowSchema.mk 3 (.static "c") (.heap 4 "cell_type") .null 0 nullptr [] none
      (some .release_schema)).dictionary = none :=
  ⟨rfl, rfl⟩

/-- C10 (the code at the failing input): for a schema with the single dimension
`soma_joinid`, the child's name is the heap string at address 4, live after
construction; `release_schema` on the root frees the child node (address 3)
and the children array (address 2) and never the name. -/
theorem release_schema_leaks_child_name :
    tiledb_schema_to_arrow_schema [] ⟨[⟨"soma_joinid", TILEDB_INT64⟩], []⟩ =
      .ok (.mk 1 (.static "+s") .null .null 0 2
        [.mk 3 (.static "l") (.heap 4 "soma_joinid") .null 0 nullptr [] none
          (some .release_schema)]
        none (some .release_schema), [4, 3, 2, 1]) ∧
    (release_schema (.mk 1 (.static "+s") .null .null 0 2
        [.mk 3 (.static "l") (.heap 4 "soma_joinid") .null 0 nullptr [] none
          (some .release_schema)]
        none (some .release_schema))).2 = [.block 3, .block 2] ∧
    (release_schema (.mk 1 (.static "+s") .null .null 0 2
        [.mk 3 (.static "l") (.heap 4 "soma_joinid") .null 0 nullptr [] none
          (some .release_schema)]
        none (some .release_schema))).2.count (.block 4) = 0 :=
  ⟨rfl, rfl, rfl⟩

/-! ## Theorems: `release_schema` on a constructed schema -/

/-- `release_schema` on a leaf without dictionary frees nothing. -/
theorem release_schema_leaf (self : Ptr) (format name metadata : CStr) (flags : Nat)
    (release : Option ReleaseCallback) :
    (release_schema (.mk self format name metadata flags nullptr [] none release)).2 = [] := by
  simp [release_schema, release_schema_loop, free]

/-- `release_schema` leaves a node at its address. -/
theorem release_schema_self (s : ArrowSchema) : (release_schema s).1.self = s.self := by
  cases s with
  | mk self format name metadata flags children_ptr children dictionary release =>
      cases dictionary with
      | none => simp [release_schema, ArrowSchema.self]
      | some dict =>
          cases dict
          simp [release_schema, ArrowSchema.self]

/-- The loop of `release_schema` over children that are all leaves without
dictionary, the parent's name being null: it frees the child nodes, in order,
and nothing else. -/
theorem release_schema_loop_leaves (cs : List ArrowSchema)
    (hleaf : ∀ c ∈ cs, ∃ self format name metadata flags release,
      c = .mk self format name metadata flags nullptr [] none release) :
    (release_schema_loop .null cs).2.2 = cs.map (fun c => FreeCall.block c.self) := by
  induction cs with
  | nil => simp [release_schema_loop]
  | cons c cs ih =>
      obtain ⟨self, format, name, metadata, flags, release, hc⟩ :=
        hleaf c (List.mem_cons_self _ _)
      have ih' := ih (fun c' hc' => hleaf c' (List.mem_cons_of_mem _ hc'))
      subst hc
      cases release with
      | none =>
          simp [release_schema_loop, CStr.release, ArrowSchema.release, ArrowSchema.self, ih']
      | some cb =>
          cases cb
          have hl := release_schema_leaf self format name metadata flags
            (some .release_schema)
          simp [release_schema_loop, CStr.release, ArrowSchema.release, ih']
          rw [hl, release_schema_self]
          rfl

/-- Addresses in the first loop: everything live before stays live, every
child is a leaf at a newly allocated address with its name in a newly
allocated heap string, and no name string shares its address with a child
node. -/
theorem dimension_children_heap (dims : List Dimension) :
    ∀ (h : Heap) (cs : List ArrowSchema) (h' : Heap),
      dimension_children h dims = .ok (cs, h') →
      (∀ q ∈ h, q ∈ h') ∧
      (∀ c ∈ cs, ∃ self p code name flags,
        c = .mk self (.static code) (.heap p name) .null flags nullptr [] none
          (some .release_schema) ∧
        self ∈ h' ∧ self ∉ h ∧ p ∈ h' ∧ p ∉ h) ∧
      (∀ c ∈ cs, ∀ c' ∈ cs, ∀ p s, c.name = .heap p s → p ≠ c'.self) := by
  induction dims with
  | nil =>
      intro h cs h' hres
      simp [dimension_children] at hres
      obtain ⟨hcs, hh⟩ := hres
      subst hcs
      subst hh
      refine ⟨fun q hq => hq, ?_, ?_⟩
      · intro c hc
        cases hc
      · intro c hc
        cases hc
  | cons d dims ih =>
      intro h cs h' hres
      unfold dimension_children at hres
      cases hc : dimension_child h d with
      | error e => simp [hc] at hres
      | ok r =>
          obtain ⟨c0, h1⟩ := r
          cases hcs : dimension_children h1 dims with
          | error e => simp [hc, hcs] at hres
          | ok r2 =>
              obtain ⟨cs1, h2⟩ := r2
              simp [hc, hcs] at hres
              obtain ⟨hcons, hh⟩ := hres
              subst hcons
              subst hh
              obtain ⟨code, _, hc0, hh1⟩ := dimension_child_eq h d c0 h1 hc
              obtain ⟨hmono, hshape, hsep⟩ := ih h1 cs1 h2 hcs
              have hsub : ∀ q ∈ h, q ∈ h1 := by
                intro q hq
                rw [hh1]
                exact List.mem_cons_of_mem _ (List.mem_cons_of_mem _ hq)
              have hself1 : h.fresh ∈ h1 := by
                rw [hh1]
                exact List.mem_cons_of_mem _ (List.mem_cons_self _ _)
              have hname1 : Heap.fresh (h.fresh :: h) ∈ h1 := by
                rw [hh1]
                exact List.mem_cons_self _ _
              have hname_ne : Heap.fresh (h.fresh :: h) ≠ h.fresh := by
                intro heq
                apply Heap.fresh_not_mem (h.fresh :: h)
                rw [heq]
                exact List.mem_cons_self _ _
              have hname_nm : Heap.fresh (h.fresh :: h) ∉ h := fun hm =>
                Heap.fresh_not_mem (h.fresh :: h) (List.mem_cons_of_mem _ hm)
              refine ⟨fun q hq => hmono q (hsub q hq), ?_, ?_⟩
              · intro c hcm
                rcases List.mem_cons.mp hcm with hceq | hcm1
                · subst hceq
                  exact ⟨h.fresh, Heap.fresh (h.fresh :: h), code, d.name, _, hc0,
                    hmono _ hself1, Heap.fresh_not_mem h, hmono _ hname1, hname_nm⟩
                · obtain ⟨self, p, code', name, flags, hceq, hs, hsn, hp, hpn⟩ := hshape c hcm1
                  exact ⟨self, p, code', name, flags, hceq, hs, fun hm => hsn (hsub _ hm), hp,
                    fun hm => hpn (hsub _ hm)⟩
              · intro c hcm c' hcm' p s hname
                rcases List.mem_cons.mp hcm with hceq | hcm1
                · subst hceq
                  rw [hc0] at hname
                  simp [ArrowSchema.name] at hname
                  obtain ⟨hp, _⟩ := hname
                  subst hp
                  rcases List.mem_cons.mp hcm' with hceq' | hcm1'
                  · subst hceq'
                    rw [hc0]
                    exact hname_ne
                  · obtain ⟨self, p', code', name', flags', hceq', _, hsn, _, _⟩ := hshape c' hcm1'
                    rw [hceq']
                    intro heq
                    simp only [ArrowSchema.self] at heq
                    rw [heq] at hname1
                    exact hsn hname1
                · rcases List.mem_cons.mp hcm' with hceq' | hcm1'
                  · subst hceq'
                    obtain ⟨self, p', code', name', flags', hceq, _, _, _, hpn⟩ := hshape c hcm1
                    rw [hceq] at hname
                    simp [ArrowSchema.name] at hname
                    obtain ⟨hp, _⟩ := hname
                    subst hp
                    rw [hc0]
                    intro heq
                    simp only [ArrowSchema.self] at heq
                    rw [← heq] at hself1
                    exact hpn hself1
                  · exact hsep c hcm1 c' hcm1' p s hname

/-- Addresses in the second loop: everything live before stays live, every
child is a leaf at a newly allocated address with its name in a newly
allocated heap string, and no name string shares its address with a child
node. -/
theorem attribute_children_heap (attrs : List Attribute) :
    ∀ (h : Heap) (cs : List ArrowSchema) (h' : Heap),
      attribute_children h attrs = .ok (cs, h') →
      (∀ q ∈ h, q ∈ h') ∧
      (∀ c ∈ cs, ∃ self p code name flags,
        c = .mk self (.static code) (.heap p name) .null flags nullptr [] none
          (some .release_schema) ∧
        self ∈ h' ∧ self ∉ h ∧ p ∈ h' ∧ p ∉ h) ∧
      (∀ c ∈ cs, ∀ c' ∈ cs, ∀ p s, c.name = .heap p s → p ≠ c'.self) := by
  induction attrs with
  | nil =>
      intro h cs h' hres
      simp [attribute_children] at hres
      obtain ⟨hcs, hh⟩ := hres
      subst hcs
      subst hh
      refine ⟨fun q hq => hq, ?_, ?_⟩
      · intro c hc
        cases hc
      · intro c hc
        cases hc
  | cons d attrs ih =>
      intro h cs h' hres
      unfold attribute_children at hres
      cases hc : attribute_child h d with
      | error e => simp [hc] at hres
      | ok r =>
          obtain ⟨c0, h1⟩ := r
          cases hcs : attribute_children h1 attrs with
          | error e => simp [hc, hcs] at hres
          | ok r2 =>
              obtain ⟨cs1, h2⟩ := r2
              simp [hc, hcs] at hres
              obtain ⟨hcons, hh⟩ := hres
              subst hcons
              subst hh
              obtain ⟨code, _, hc0, hh1⟩ := attribute_child_eq h d c0 h1 hc
              obtain ⟨hmono, hshape, hsep⟩ := ih h1 cs1 h2 hcs
              have hsub : ∀ q ∈ h, q ∈ h1 := by
                intro q hq
                rw [hh1]
                exact List.mem_cons_of_mem _ (List.mem_cons_of_mem _ hq)
              have hself1 : h.fresh ∈ h1 := by
                rw [hh1]
                exact List.mem_cons_of_mem _ (List.mem_cons_self _ _)
              have hname1 : Heap.fresh (h.fresh :: h) ∈ h1 := by
                rw [hh1]
                exact List.mem_cons_self _ _
              have hname_ne : Heap.fresh (h.fresh :: h) ≠ h.fresh := by
                intro heq
                apply Heap.fresh_not_mem (h.fresh :: h)
                rw [heq]
                exact List.mem_cons_self _ _
              have hname_nm : Heap.fresh (h.fresh :: h) ∉ h := fun hm =>
                Heap.fresh_not_mem (h.fresh :: h) (List.mem_cons_of_mem _ hm)
              refine ⟨fun q hq => hmono q (hsub q hq), ?_, ?_⟩
              · intro c hcm
                rcases List.mem_cons.mp hcm with hceq | hcm1
                · subst hceq
                  exact ⟨h.fresh, Heap.fresh (h.fresh :: h), code, d.name, _, hc0,
                    hmono _ hself1, Heap.fresh_not_mem h, hmono _ hname1, hname_nm⟩
                · obtain ⟨self, p, code', name, flags, hceq, hs, hsn, hp, hpn⟩ := hshape c hcm1
                  exact ⟨self, p, code', name, flags, hceq, hs, fun hm => hsn (hsub _ hm), hp,
                    fun hm => hpn (hsub _ hm)⟩
              · intro c hcm c' hcm' p s hname
                rcases List.mem_cons.mp hcm with hceq | hcm1
                · subst hceq
                  rw [hc0] at hname
                  simp [ArrowSchema.name] at hname
                  obtain ⟨hp, _⟩ := hname
                  subst hp
                  rcases List.mem_cons.mp hcm' with hceq' | hcm1'
                  · subst hceq'
                    rw [hc0]
                    exact hname_ne
                  · obtain ⟨self, p', code', name', flags', hceq', _, hsn, _, _⟩ := hshape c' hcm1'
                    rw [hceq']
                    intro heq
                    simp only [ArrowSchema.self] at heq
                    rw [heq] at hname1
                    exact hsn hname1
                · rcases List.mem_cons.mp hcm' with hceq' | hcm1'
                  · subst hceq'
                    obtain ⟨self, p', code', name', flags', hceq, _, _, _, hpn⟩ := hshape c hcm1
                    rw [hceq] at hname
                    simp [ArrowSchema.name] at hname
                    obtain ⟨hp, _⟩ := hname
                    subst hp
                    rw [hc0]
                    intro heq
                    simp only [ArrowSchema.self] at heq
                    rw [← heq] at hself1
                    exact hpn hself1
                  · exact hsep c hcm1 c' hcm1' p s hname

/-- For every schema `tiledb_schema_to_arrow_schema` returns, `release_schema`
on the root frees the child nodes, in order, and then the children array, and
nothing else; the heap string that holds a child's name is live after
construction and is not among the blocks freed. -/
theorem release_schema_frees_no_child_name (h : Heap) (schema : ArraySchema)
    (root : ArrowSchema) (h' : Heap)
    (hres : tiledb_schema_to_arrow_schema h schema = .ok (root, h')) :
    (release_schema root).2 =
        root.children.map (fun c => FreeCall.block c.self) ++ [.block root.children_ptr] ∧
      ∀ c ∈ root.children, ∃ p s, c.name = .heap p s ∧ p ∈ h' ∧
        (release_schema root).2.count (.block p) = 0 := by
  obtain ⟨dims, attrs, h1, h2, hdims, hattrs, hroot, hh⟩ :=
    tiledb_schema_to_arrow_schema_eq h schema root h' hres
  obtain ⟨hmono1, hshape1, hsep1⟩ := dimension_children_heap _ _ _ _ hdims
  obtain ⟨hmono2, hshape2, hsep2⟩ := attribute_children_heap _ _ _ _ hattrs
  subst hroot
  subst hh
  have hleaf : ∀ c ∈ dims ++ attrs, ∃ self format name metadata flags release,
      c = .mk self format name metadata flags nullptr [] none release := by
    intro c hc
    rcases List.mem_append.mp hc with hm | hm
    · obtain ⟨self, p, code, name, flags, hceq, _⟩ := hshape1 c hm
      exact ⟨self, _, _, _, flags, _, hceq⟩
    · obtain ⟨self, p, code, name, flags, hceq, _⟩ := hshape2 c hm
      exact ⟨self, _, _, _, flags, _, hceq⟩
  have hptr : Heap.fresh (h.fresh :: h) ≠ nullptr := Heap.fresh_ne_null _
  have hlog : (release_schema (.mk h.fresh (.static "+s") .null .null 0
      (Heap.fresh (h.fresh :: h)) (dims ++ attrs) none (some .release_schema))).2 =
      (dims ++ attrs).map (fun c => FreeCall.block c.self) ++
        [.block (Heap.fresh (h.fresh :: h))] := by
    have hloop := release_schema_loop_leaves (dims ++ attrs) hleaf
    simp only [release_schema, free, hptr, if_false]
    rw [hloop]
  refine ⟨hlog, ?_⟩
  intro c hc
  have hcp : Heap.fresh (h.fresh :: h) ∈ Heap.fresh (h.fresh :: h) :: h.fresh :: h :=
    List.mem_cons_self _ _
  have hc : c ∈ dims ++ attrs := hc
  have hkey : ∃ p s, c.name = .heap p s ∧ p ∈ h' ∧ p ≠ Heap.fresh (h.fresh :: h) ∧
      ∀ c' ∈ dims ++ attrs, p ≠ c'.self := by
    rcases List.mem_append.mp hc with hm | hm
    · obtain ⟨self, p, code, name, flags, hceq, _, _, hp1, hpn⟩ := hshape1 c hm
      refine ⟨p, name, by rw [hceq]; rfl, hmono2 p hp1, ?_, ?_⟩
      · intro heq
        rw [heq] at hpn
        exact hpn hcp
      · intro c' hc'
        rcases List.mem_append.mp hc' with hm' | hm'
        · exact hsep1 c hm c' hm' p name (by rw [hceq]; rfl)
        · obtain ⟨self', p', code', name', flags', hceq', _, hsn', _, _⟩ := hshape2 c' hm'
          rw [hceq']
          intro heq
          simp only [ArrowSchema.self] at heq
          rw [heq] at hp1
          exact hsn' hp1
    · obtain ⟨self, p, code, name, flags, hceq, _, _, hp2, hpn⟩ := hshape2 c hm
      refine ⟨p, name, by rw [hceq]; rfl, hp2, ?_, ?_⟩
      · intro heq
        rw [heq] at hpn
        exact hpn (hmono1 _ hcp)
      · intro c' hc'
        rcases List.mem_append.mp hc' with hm' | hm'
        · obtain ⟨self', p', code', name', flags', hceq', hs1', _, _, _⟩ := hshape1 c' hm'
          rw [hceq']
          intro heq
          simp only [ArrowSchema.self] at heq
          rw [← heq] at hs1'
          exact hpn hs1'
        · exact hsep2 c hm c' hm' p name (by rw [hceq]; rfl)
  obtain ⟨p, s, hname, hlive, hne, hsep⟩ := hkey
  refine ⟨p, s, hname, hlive, ?_⟩
  rw [hlog]
  apply List.count_eq_zero.mpr
  intro hmem
  rcases List.mem_append.mp hmem with hm | hm
  · obtain ⟨c', hc', heq⟩ := List.mem_map.mp hm
    cases heq
    exact hsep c' hc' rfl
  · simp at hm
    exact hne hm


/-! ## Theorems: `release_schema` on any schema tree -/

/-- The deallocations of a concatenation. -/
theorem ReleaseEvent.frees_append (a b : List ReleaseEvent) :
    ReleaseEvent.frees (a ++ b) = ReleaseEvent.frees a ++ ReleaseEvent.frees b := by
  induction a with
  | nil => rfl
  | cons e a ih => cases e <;> simp [ReleaseEvent.frees, ih]

/-- The deallocations of a sequence of deallocations. -/
theorem ReleaseEvent.frees_map_free (l : List FreeCall) :
    ReleaseEvent.frees (l.map .free) = l := by
  induction l with
  | nil => rfl
  | cons f l ih => simp [ReleaseEvent.frees, ih]

mutual
/-- The deallocations in the event sequence are the log of `release_schema`. -/
theorem release_schema_trace_frees :
    ∀ s : ArrowSchema, ReleaseEvent.frees (release_schema_trace s) = (release_schema s).2
  | .mk self format name metadata flags children_ptr children dictionary release => by
      have hloop := release_schema_loop_trace_frees name children
      cases dictionary with
      | none =>
          simp [release_schema_trace, release_schema, ReleaseEvent.frees_append,
            ReleaseEvent.frees_map_free, hloop]
      | some dict =>
          cases dict with
          | mk dself dformat dname dmetadata dflags dchildren_ptr dchildren ddict drelease =>
              cases drelease <;>
                simp [release_schema_trace, release_schema, ReleaseEvent.frees_append,
                  ReleaseEvent.frees_map_free, hloop, ReleaseEvent.frees]
/-- The deallocations in the loop's event sequence are the loop's log. -/
theorem release_schema_loop_trace_frees :
    ∀ (name : CStr) (children : List ArrowSchema),
      ReleaseEvent.frees (release_schema_loop_trace name children) =
        (release_schema_loop name children).2.2
  | _, [] => by simp [release_schema_loop_trace, release_schema_loop, ReleaseEvent.frees]
  | name, child :: children => by
      have hchild := release_schema_trace_frees child
      have hrest := release_schema_loop_trace_frees name.release.1 children
      cases hrel : child.release with
      | none =>
          simp [release_schema_loop_trace, release_schema_loop, ReleaseEvent.frees_append,
            ReleaseEvent.frees_map_free, hrel, hrest, ReleaseEvent.frees]
      | some cb =>
          cases cb
          simp [release_schema_loop_trace, release_schema_loop, ReleaseEvent.frees_append,
            ReleaseEvent.frees_map_free, hrel, hrest, hchild, ReleaseEvent.frees,
            release_schema_self]
end

/-- The callback invocations of a concatenation. -/
theorem ReleaseEvent.calls_append (a b : List ReleaseEvent) :
    ReleaseEvent.calls (a ++ b) = ReleaseEvent.calls a ++ ReleaseEvent.calls b := by
  induction a with
  | nil => rfl
  | cons e a ih => cases e <;> simp [ReleaseEvent.calls, ih]

/-- A sequence of deallocations invokes no callback. -/
theorem ReleaseEvent.calls_map_free (l : List FreeCall) :
    ReleaseEvent.calls (l.map .free) = [] := by
  induction l with
  | nil => rfl
  | cons f l ih => simp [ReleaseEvent.calls, ih]

/-- What a node reaches includes the nodes below it and what they reach. -/
theorem blocks_list_children_le_owned (s : ArrowSchema) (p : Ptr) :
    (blocks_list s.children).count p ≤ s.owned.count p := by
  cases s with
  | mk self format name metadata flags children_ptr children dictionary release =>
      cases dictionary <;>
        simp only [ArrowSchema.children, ArrowSchema.owned, List.count_append] <;> omega

mutual
/-- The callbacks invoked by `release_schema` belong to nodes below the node,
each at most as often as its address occurs there. -/
theorem release_schema_trace_calls_le :
    ∀ (s : ArrowSchema) (p : Ptr),
      (ReleaseEvent.calls (release_schema_trace s)).count p ≤ (blocks_list s.children).count p
  | .mk self format name metadata flags children_ptr children dictionary release, p => by
      have hloop := release_schema_loop_trace_calls_le name children p
      cases dictionary with
      | none =>
          simpa [release_schema_trace, ReleaseEvent.calls_append, ReleaseEvent.calls_map_free,
            ArrowSchema.children] using hloop
      | some dict =>
          cases dict with
          | mk dself dformat dname dmetadata dflags dchildren_ptr dchildren ddict drelease =>
              cases drelease <;>
                simpa [release_schema_trace, ReleaseEvent.calls_append,
                  ReleaseEvent.calls_map_free, ArrowSchema.children, ReleaseEvent.calls]
                  using hloop
/-- The same for the loop of `release_schema`. -/
theorem release_schema_loop_trace_calls_le :
    ∀ (name : CStr) (children : List ArrowSchema) (p : Ptr),
      (ReleaseEvent.calls (release_schema_loop_trace name children)).count p ≤
        (blocks_list children).count p
  | _, [], p => by simp [release_schema_loop_trace, ReleaseEvent.calls]
  | name, child :: children, p => by
      have hchild := release_schema_trace_calls_le child p
      have hown := blocks_list_children_le_owned child p
      have hrest := release_schema_loop_trace_calls_le name.release.1 children p
      cases hrel : child.release with
      | none =>
          simp only [release_schema_loop_trace, hrel, ReleaseEvent.calls_append,
            ReleaseEvent.calls_map_free, ReleaseEvent.calls, blocks_list, List.count_append,
            List.count_cons, List.nil_append, List.append_nil, List.count_nil]
          omega
      | some cb =>
          cases cb
          simp only [release_schema_loop_trace, hrel, ReleaseEvent.calls_append,
            ReleaseEvent.calls_map_free, ReleaseEvent.calls, blocks_list, List.count_append,
            List.count_cons, List.nil_append, List.append_nil, List.count_nil]
          omega
end

/-- Counting a block among one freed block is counting its address. -/
theorem count_block_singleton (q p : Ptr) :
    [FreeCall.block q].count (.block p) = [q].count p := by
  by_cases h : q = p
  · subst h
    simp
  · have h1 : (FreeCall.block q == FreeCall.block p) = false := by
      simp [h]
    have h2 : (q == p) = false := by simp [h]
    simp [List.count_cons, h1, h2]

/-- Releasing a `const char*` field frees its heap block, if it has one. -/
theorem CStr.release_count (c : CStr) (p : Ptr) :
    (c.release.2).count (.block p) = c.block.count p := by
  cases c with
  | null => simp [CStr.release, CStr.block]
  | static s => simp [CStr.release, CStr.free, CStr.block]
  | heap q s =>
      simp only [CStr.release, CStr.free, CStr.block, reduceCtorEq, if_false]
      exact count_block_singleton q p

/-- A released `const char*` field is null. -/
theorem CStr.release_block (c : CStr) : c.release.1.block = [] := by
  cases c <;> simp [CStr.release, CStr.block]

/-- `free` on a block pointer frees the block unless the pointer is null. -/
theorem free_count (q p : Ptr) :
    (free q).count (.block p) = (if q = nullptr then [] else [q]).count p := by
  by_cases hq : q = nullptr
  · simp [free, hq]
  · simp only [free, hq, if_false]
    exact count_block_singleton q p

mutual
/-- The blocks `release_schema` frees are blocks the node reaches, each freed
at most as often as it occurs there. -/
theorem release_schema_trace_frees_le :
    ∀ (s : ArrowSchema) (p : Ptr),
      (ReleaseEvent.frees (release_schema_trace s)).count (.block p) ≤ s.owned.count p
  | .mk self format name metadata flags children_ptr children dictionary release, p => by
      have hloop := release_schema_loop_trace_frees_le name children p
      have hfree := free_count children_ptr p
      cases dictionary with
      | none =>
          simp only [release_schema_trace, ArrowSchema.owned, ReleaseEvent.frees_append,
            ReleaseEvent.frees_map_free, List.count_append, ReleaseEvent.frees, List.count_nil]
          omega
      | some dict =>
          cases dict with
          | mk dself dformat dname dmetadata dflags dchildren_ptr dchildren ddict drelease =>
              have hfmt := CStr.release_count dformat p
              cases drelease <;> cases ddict <;>
                simp only [release_schema_trace, ArrowSchema.owned, ArrowSchema.self,
                  ReleaseEvent.frees_append, ReleaseEvent.frees_map_free, List.count_append,
                  ReleaseEvent.frees, List.count_nil, List.count_cons, Option.isSome,
                  if_true, if_false, Bool.false_eq_true, FreeCall.block.injEq, beq_iff_eq] <;>
                omega
/-- The same for the loop of `release_schema`; the parent's name is freed in
the first round. -/
theorem release_schema_loop_trace_frees_le :
    ∀ (name : CStr) (children : List ArrowSchema) (p : Ptr),
      (ReleaseEvent.frees (release_schema_loop_trace name children)).count (.block p) ≤
        name.block.count p + (blocks_list children).count p
  | _, [], p => by simp [release_schema_loop_trace, ReleaseEvent.frees]
  | name, child :: children, p => by
      have hchild := release_schema_trace_frees_le child p
      have hrest := release_schema_loop_trace_frees_le name.release.1 children p
      have hname := CStr.release_count name p
      rw [CStr.release_block] at hrest
      cases hrel : child.release with
      | none =>
          simp only [release_schema_loop_trace, hrel, ReleaseEvent.frees_append,
            ReleaseEvent.frees_map_free, ReleaseEvent.frees, blocks_list, List.count_append,
            List.count_cons, List.nil_append, List.append_nil, List.count_nil,
            FreeCall.block.injEq, beq_iff_eq] at hrest ⊢
          omega
      | some cb =>
          cases cb
          simp only [release_schema_loop_trace, hrel, ReleaseEvent.frees_append,
            ReleaseEvent.frees_map_free, ReleaseEvent.frees, blocks_list, List.count_append,
            List.count_cons, List.nil_append, List.append_nil, List.count_nil,
            FreeCall.block.injEq, beq_iff_eq] at hrest ⊢
          omega
end

/-- A callback invocation is among the events exactly when its node is among
the invoked ones. -/
theorem ReleaseEvent.mem_calls (t : List ReleaseEvent) (p : Ptr) :
    p ∈ ReleaseEvent.calls t ↔ ReleaseEvent.call p ∈ t := by
  induction t with
  | nil => simp [ReleaseEvent.calls]
  | cons e t ih => cases e <;> simp [ReleaseEvent.calls, ih]

/-- A deallocation is among the events exactly when it is among the
deallocations. -/
theorem ReleaseEvent.mem_frees (t : List ReleaseEvent) (f : FreeCall) :
    f ∈ ReleaseEvent.frees t ↔ ReleaseEvent.free f ∈ t := by
  induction t with
  | nil => simp [ReleaseEvent.frees]
  | cons e t ih => cases e <;> simp [ReleaseEvent.frees, ih]

/-- The loop frees every child node. -/
theorem release_schema_loop_trace_frees_child (children : List ArrowSchema) :
    ∀ (name : CStr) (c : ArrowSchema), c ∈ children →
      ReleaseEvent.free (.block c.self) ∈ release_schema_loop_trace name children := by
  induction children with
  | nil => intro name c hc; cases hc
  | cons child children ih =>
      intro name c hc
      rw [release_schema_loop_trace]
      rcases List.mem_cons.mp hc with heq | hmem
      · subst heq
        simp
      · have := ih name.release.1 c hmem
        simp [this]

/-- The loop invokes the callback of every child that holds one, and performs
everything that callback performs. -/
theorem release_schema_loop_trace_calls_child (children : List ArrowSchema) :
    ∀ (name : CStr) (c : ArrowSchema), c ∈ children → c.release = some .release_schema →
      ReleaseEvent.call c.self ∈ release_schema_loop_trace name children ∧
      ∀ e ∈ release_schema_trace c, e ∈ release_schema_loop_trace name children := by
  induction children with
  | nil => intro name c hc; cases hc
  | cons child children ih =>
      intro name c hc hrel
      rw [release_schema_loop_trace]
      rcases List.mem_cons.mp hc with heq | hmem
      · subst heq
        simp only [hrel]
        refine ⟨by simp, fun e he => ?_⟩
        simp [he]
      · obtain ⟨h1, h2⟩ := ih name.release.1 c hmem hrel
        refine ⟨by simp [h1], fun e he => ?_⟩
        have := h2 e he
        simp [this]

/-- The events of the loop over a node's children are events of the release of
the node. -/
theorem release_schema_trace_of_loop (s : ArrowSchema) (e : ReleaseEvent)
    (he : e ∈ release_schema_loop_trace s.name s.children) : e ∈ release_schema_trace s := by
  cases s with
  | mk self format name metadata flags children_ptr children dictionary release =>
      cases dictionary with
      | none =>
          simp only [ArrowSchema.name, ArrowSchema.children] at he
          simp [release_schema_trace, he]
      | some dict =>
          cases dict
          simp only [ArrowSchema.name, ArrowSchema.children] at he
          simp [release_schema_trace, he]

/-- The release of a node frees its children array, when it has one. -/
theorem release_schema_trace_frees_array (s : ArrowSchema) (hptr : s.children_ptr ≠ nullptr) :
    ReleaseEvent.free (.block s.children_ptr) ∈ release_schema_trace s := by
  cases s with
  | mk self format name metadata flags children_ptr children dictionary release =>
      simp only [ArrowSchema.children_ptr] at hptr
      cases dictionary with
      | none => simp [release_schema_trace, free, hptr, ArrowSchema.children_ptr]
      | some dict =>
          cases dict
          simp [release_schema_trace, free, hptr, ArrowSchema.children_ptr]

/-- The release of a node reaches every node `ReleasedBy` it: it invokes that
node's callback and performs everything the callback performs. -/
theorem release_schema_trace_reaches (s d : ArrowSchema) (h : ReleasedBy s d) :
    ReleaseEvent.call d.self ∈ release_schema_trace s ∧
    ∀ e ∈ release_schema_trace d, e ∈ release_schema_trace s := by
  induction h with
  | direct hc hrel =>
      obtain ⟨h1, h2⟩ := release_schema_loop_trace_calls_child _ _ _ hc hrel
      exact ⟨release_schema_trace_of_loop _ _ h1,
        fun e he => release_schema_trace_of_loop _ _ (h2 e he)⟩
  | through hc hrel _ ih =>
      obtain ⟨_, h2⟩ := release_schema_loop_trace_calls_child _ _ _ hc hrel
      exact ⟨release_schema_trace_of_loop _ _ (h2 _ ih.1),
        fun e he => release_schema_trace_of_loop _ _ (h2 _ (ih.2 e he))⟩

/-- `release_schema` leaves the release pointer of the node null. -/
theorem release_schema_release_null (s : ArrowSchema) : (release_schema s).1.release = none := by
  cases s with
  | mk self format name metadata flags children_ptr children dictionary release =>
      cases dictionary with
      | none => simp [release_schema, ArrowSchema.release]
      | some dict =>
          cases dict
          simp [release_schema, ArrowSchema.release]

/-- C11: for a schema tree (a tree of heap objects: no block occurs twice),
`release_schema` on a node leaves the node's release pointer null, frees each
child node exactly once and the children array exactly once, and invokes
exactly once the release callback of every node below that still holds a
release pointer and is reached through such nodes; each of those callbacks in
turn frees the children and the children array of its node exactly once. -/
theorem release_schema_releases_each_child_once (s : ArrowSchema) (htree : s.blocks.Nodup) :
    (release_schema s).1.release = none ∧
    (∀ c ∈ s.children, (release_schema s).2.count (.block c.self) = 1) ∧
    (s.children_ptr ≠ nullptr → (release_schema s).2.count (.block s.children_ptr) = 1) ∧
    (∀ d, ReleasedBy s d →
      (ReleaseEvent.calls (release_schema_trace s)).count d.self = 1 ∧
      (∀ c ∈ d.children, (release_schema s).2.count (.block c.self) = 1) ∧
      (d.children_ptr ≠ nullptr → (release_schema s).2.count (.block d.children_ptr) = 1)) := by
  have hown : ∀ p, s.owned.count p ≤ 1 :=
    List.nodup_iff_count_le_one.mp (List.Nodup.of_cons htree)
  have hfree_le : ∀ p, (release_schema s).2.count (.block p) ≤ 1 := by
    intro p
    rw [← release_schema_trace_frees]
    exact Nat.le_trans (release_schema_trace_frees_le s p) (hown p)
  have hcall_le : ∀ p, (ReleaseEvent.calls (release_schema_trace s)).count p ≤ 1 := fun p =>
    Nat.le_trans (release_schema_trace_calls_le s p)
      (Nat.le_trans (blocks_list_children_le_owned s p) (hown p))
  have hfree_of_mem : ∀ p, ReleaseEvent.free (.block p) ∈ release_schema_trace s →
      (release_schema s).2.count (.block p) = 1 := by
    intro p hmem
    have hge : 1 ≤ (release_schema s).2.count (.block p) := by
      rw [← release_schema_trace_frees]
      exact List.one_le_count_iff.mpr ((ReleaseEvent.mem_frees _ _).mpr hmem)
    exact Nat.le_antisymm (hfree_le p) hge
  refine ⟨release_schema_release_null s, ?_, ?_, ?_⟩
  · intro c hc
    exact hfree_of_mem _ (release_schema_trace_of_loop s _
      (release_schema_loop_trace_frees_child _ _ c hc))
  · intro hptr
    exact hfree_of_mem _ (release_schema_trace_frees_array s hptr)
  · intro d hd
    obtain ⟨hcall, hsub⟩ := release_schema_trace_reaches s d hd
    refine ⟨?_, ?_, ?_⟩
    · have hge : 1 ≤ (ReleaseEvent.calls (release_schema_trace s)).count d.self :=
        List.one_le_count_iff.mpr ((ReleaseEvent.mem_calls _ _).mpr hcall)
      exact Nat.le_antisymm (hcall_le _) hge
    · intro c hc
      exact hfree_of_mem _ (hsub _ (release_schema_trace_of_loop d _
        (release_schema_loop_trace_frees_child _ _ c hc)))
    · intro hptr
      exact hfree_of_mem _ (hsub _ (release_schema_trace_frees_array d hptr))

/-- Witness of C11: a root (node 1, children array 2) with a child (node 3,
children array 4) that holds a release pointer and has one leaf child (node 5)
of its own, and a second child (node 6) without release pointer. -/
theorem release_schema_releases_each_child_once_witness :
    (release_schema (.mk 1 (.static "+s") .null .null 0 2
        [.mk 3 (.static "+s") .null .null 0 4
            [.mk 5 (.static "i") .null .null 0 nullptr [] none (some .release_schema)]
            none (some .release_schema),
          .mk 6 (.static "l") .null .null 0 nullptr [] none none]
        none (some .release_schema))).1.release = none ∧
    (release_schema (.mk 1 (.static "+s") .null .null 0 2
        [.mk 3 (.static "+s") .null .null 0 4
            [.mk 5 (.static "i") .null .null 0 nullptr [] none (some .release_schema)]
            none (some .release_schema),
          .mk 6 (.static "l") .null .null 0 nullptr [] none none]
        none (some .release_schema))).2 =
      [.block 5, .block 4, .block 3, .block 6, .block 2] ∧
    (ReleaseEvent.calls (release_schema_trace (.mk 1 (.static "+s") .null .null 0 2
        [.mk 3 (.static "+s") .null .null 0 4
            [.mk 5 (.static "i") .null .null 0 nullptr [] none (some .release_schema)]
            none (some .release_schema),
          .mk 6 (.static "l") .null .null 0 nullptr [] none none]
        none (some .release_schema)))).count 3 = 1 :=
  have h := release_schema_releases_each_child_once (.mk 1 (.static "+s") .null .null 0 2
    [.mk 3 (.static "+s") .null .null 0 4
        [.mk 5 (.static "i") .null .null 0 nullptr [] none (some .release_schema)]
        none (some .release_schema),
      .mk 6 (.static "l") .null .null 0 nullptr [] none none]
    none (some .release_schema)) (by decide)
  ⟨h.1, rfl,
    (h.2.2.2 (.mk 3 (.static "+s") .null .null 0 4
        [.mk 5 (.static "i") .null .null 0 nullptr [] none (some .release_schema)]
        none (some .release_schema))
      (ReleasedBy.direct (List.mem_cons_self _ _) rfl)).1⟩


/-! ## Theorems: `release_array` -/

/-- `release_array` on an array with an `ArrowBuffer`: the result. -/
theorem release_array_ok (array : ArrowArray) (buffers : ColumnBuffers)
    (arrow_buffer : ArrowBuffer) (hpd : array.private_data = some arrow_buffer) :
    ∃ array' log, release_array array buffers =
        .ok (array', shared_ptr_destroy buffers arrow_buffer.buffer_, log) ∧
      array'.release = none ∧ FreeCall.block arrow_buffer.self ∈ log := by
  obtain ⟨bufs, dictionary, release, private_data⟩ := array
  simp only at hpd
  subst hpd
  cases dictionary with
  | none =>
      exact ⟨ArrowArray.mk bufs none none (some arrow_buffer),
        [FreeCall.block arrow_buffer.self] ++ free bufs, rfl, rfl, by simp⟩
  | some dict =>
      exact ⟨ArrowArray.mk bufs (some (ArrowArrayDictionary.mk dict.self nullptr dict.release))
          none (some arrow_buffer),
        [FreeCall.block arrow_buffer.self] ++ free bufs ++ free dict.buffers ++
          (if dict.release.isSome then [FreeCall.block dict.self] else []), rfl, rfl, by simp⟩

/-- The use count after the destruction of one owning shared pointer. -/
theorem shared_ptr_destroy_use_count (buffers : ColumnBuffers) (cb : Ptr) :
    (shared_ptr_destroy buffers cb cb).use_count = (buffers cb).use_count - 1 := by
  simp [shared_ptr_destroy]

/-- The deletions after the destruction of one owning shared pointer. -/
theorem shared_ptr_destroy_deleted (buffers : ColumnBuffers) (cb : Ptr) :
    (shared_ptr_destroy buffers cb cb).deleted =
      (buffers cb).deleted + (if (buffers cb).use_count = 1 then 1 else 0) := by
  by_cases h : (buffers cb).use_count = 1 <;> simp [shared_ptr_destroy, h]

/-- The destruction of a shared pointer leaves every other `ColumnBuffer` as
it is. -/
theorem shared_ptr_destroy_other (buffers : ColumnBuffers) (cb q : Ptr) (h : q ≠ cb) :
    shared_ptr_destroy buffers cb q = buffers q := by
  simp [shared_ptr_destroy, h]

/-- A run of releases of arrays that are all backed by the `ColumnBuffer` at
`cb`, which has at least as many owners as the run has arrays: the run
returns, the use count drops by the length of the run, and the `ColumnBuffer`
is deleted once if the run is not empty and drops the last reference, and not
at all otherwise. -/
theorem release_arrays_deletes_at_most_once (cb : Ptr) (arrays : List ArrowArray) :
    ∀ buffers : ColumnBuffers,
      (∀ a ∈ arrays, ∃ ab, a.private_data = some ab ∧ ab.buffer_ = cb) →
      arrays.length ≤ (buffers cb).use_count →
      ∃ buffers', release_arrays arrays buffers = .ok buffers' ∧
        (buffers' cb).use_count = (buffers cb).use_count - arrays.length ∧
        (buffers' cb).deleted = (buffers cb).deleted +
          (if 0 < arrays.length ∧ arrays.length = (buffers cb).use_count then 1 else 0) := by
  induction arrays with
  | nil =>
      intro buffers _ _
      exact ⟨buffers, rfl, by simp, by simp⟩
  | cons a arrays ih =>
      intro buffers hback hlen
      obtain ⟨ab, hpd, hcb⟩ := hback a (List.mem_cons_self _ _)
      obtain ⟨a', log, hres, _, _⟩ := release_array_ok a buffers ab hpd
      rw [hcb] at hres
      have hlen' : arrays.length + 1 ≤ (buffers cb).use_count := by simpa using hlen
      have huse := shared_ptr_destroy_use_count buffers cb
      have hdel := shared_ptr_destroy_deleted buffers cb
      obtain ⟨buffers', hrun, hcount, hdeleted⟩ := ih (shared_ptr_destroy buffers cb)
        (fun x hx => hback x (List.mem_cons_of_mem _ hx)) (by rw [huse]; omega)
      refine ⟨buffers', by simp [release_arrays, hres, hrun], ?_, ?_⟩
      · rw [hcount, huse]
        simp only [List.length_cons]
        omega
      · rw [hdeleted, hdel, huse]
        simp only [List.length_cons]
        split_ifs <;> omega

/-- C12: `release_array` on an exported array (its `private_data` points to an
`ArrowBuffer` whose shared pointer is one of the owners of the backing
`ColumnBuffer`) returns, drops the use count of that `ColumnBuffer` by exactly
one, deletes the `ColumnBuffer` exactly when this was the last owner, touches
no other `ColumnBuffer`, and leaves the array's release pointer null; a
`ColumnBuffer` that was alive before has been deleted at most once after, and
over any run of releases of arrays backed by one live `ColumnBuffer` it is
deleted once if the run drops the last reference and not at all otherwise. -/
theorem release_array_drops_one_reference (array : ArrowArray) (buffers : ColumnBuffers)
    (arrow_buffer : ArrowBuffer) (hpd : array.private_data = some arrow_buffer)
    (hown : 1 ≤ (buffers arrow_buffer.buffer_).use_count) :
    ∃ array' buffers' log, release_array array buffers = .ok (array', buffers', log) ∧
      (buffers' arrow_buffer.buffer_).use_count + 1 = (buffers arrow_buffer.buffer_).use_count ∧
      (buffers' arrow_buffer.buffer_).deleted =
        (buffers arrow_buffer.buffer_).deleted +
          (if (buffers arrow_buffer.buffer_).use_count = 1 then 1 else 0) ∧
      ((buffers arrow_buffer.buffer_).deleted = 0 →
        (buffers' arrow_buffer.buffer_).deleted ≤ 1 ∧
        ((buffers' arrow_buffer.buffer_).deleted = 1 ↔
          (buffers' arrow_buffer.buffer_).use_count = 0)) ∧
      (∀ q, q ≠ arrow_buffer.buffer_ → buffers' q = buffers q) ∧
      array'.release = none ∧
      (∀ (arrays : List ArrowArray) (before : ColumnBuffers) (cb : Ptr),
        (∀ a ∈ arrays, ∃ ab, a.private_data = some ab ∧ ab.buffer_ = cb) →
        arrays.length ≤ (before cb).use_count → (before cb).deleted = 0 →
        ∃ after, release_arrays arrays before = .ok after ∧
          (after cb).deleted ≤ 1 ∧
          ((after cb).deleted = 1 ↔
            0 < arrays.length ∧ arrays.length = (before cb).use_count)) := by
  obtain ⟨array', log, hres, hrel, _⟩ := release_array_ok array buffers arrow_buffer hpd
  have huse := shared_ptr_destroy_use_count buffers arrow_buffer.buffer_
  have hdel := shared_ptr_destroy_deleted buffers arrow_buffer.buffer_
  refine ⟨array', _, log, hres, ?_, hdel, ?_, ?_, hrel, ?_⟩
  rotate_right
  · intro arrays before cb hback hlen halive
    obtain ⟨after, hrun, _, hdeleted⟩ :=
      release_arrays_deletes_at_most_once cb arrays before hback hlen
    refine ⟨after, hrun, ?_, ?_⟩
    · rw [hdeleted, halive]
      split_ifs <;> omega
    · rw [hdeleted, halive]
      split_ifs with hc
      · exact ⟨fun _ => hc, fun _ => by omega⟩
      · exact ⟨fun h => by omega, fun h => absurd h hc⟩
  · rw [huse]
    omega
  · intro halive
    rw [hdel, huse, halive]
    by_cases h1 : (buffers arrow_buffer.buffer_).use_count = 1
    · simp [h1]
    · have : (buffers arrow_buffer.buffer_).use_count - 1 ≠ 0 := by omega
      simp [h1, this]
  · intro q hq
    exact shared_ptr_destroy_other buffers _ q hq

/-- Witness of C12: two exported arrays share the `ColumnBuffer` at address 9
(use count 2); releasing the first leaves it alive with use count 1. -/
theorem release_array_drops_one_reference_witness :
    ∃ array' buffers' log,
      release_array ⟨20, none, some .release_array, some ⟨10, 9⟩⟩ (fun _ => ⟨"soma_joinid", 2, 0⟩) =
        .ok (array', buffers', log) ∧
      (buffers' 9).use_count + 1 = 2 ∧
      (buffers' 9).deleted = 0 + (if 2 = 1 then 1 else 0) ∧
      array'.release = none :=
  let ⟨array', buffers', log, hres, huse, hdel, _, _, hrel, _⟩ :=
    release_array_drops_one_reference ⟨20, none, some .release_array, some ⟨10, 9⟩⟩
      (fun _ => ⟨"soma_joinid", 2, 0⟩) ⟨10, 9⟩ rfl (by decide)
  ⟨array', buffers', log, hres, huse, hdel, hrel⟩


/-! ## Theorems: the nullability pass of the `create` binding -/

/-- Bit `k` of `flags | ARROW_FLAG_NULLABLE`. -/
theorem testBit_or_nullable (flags k : Nat) :
    (flags ||| ARROW_FLAG_NULLABLE).testBit k = (flags.testBit k || decide (k = 1)) := by
  have h2 : ARROW_FLAG_NULLABLE = 2 ^ 1 := rfl
  rw [Nat.testBit_or, h2, Nat.testBit_two_pow]
  by_cases hk : k = 1
  · simp [hk]
  · have : ¬ 1 = k := fun h => hk h.symm
    simp [hk, this]

/-- Bit `k` of `flags & ~ARROW_FLAG_NULLABLE` on 64 bits. -/
theorem testBit_and_not_nullable (flags k : Nat) :
    (flags &&& bitnot64 ARROW_FLAG_NULLABLE).testBit k =
      (flags.testBit k && (decide (k < 64) && !decide (k = 1))) := by
  have hmask : bitnot64 ARROW_FLAG_NULLABLE = (2 ^ 64 - 1) ^^^ 2 ^ 1 := by decide
  rw [Nat.testBit_and, hmask, Nat.testBit_xor, Nat.testBit_two_pow_sub_one, Nat.testBit_two_pow]
  by_cases hk : k = 1
  · simp [hk]
  · have : ¬ 1 = k := fun h => hk h.symm
    simp [hk, this]

/-- The nullable bit as the mask test `flags & ARROW_FLAG_NULLABLE` reads it. -/
theorem and_nullable_eq (flags : Nat) :
    flags &&& ARROW_FLAG_NULLABLE = if flags.testBit 1 then ARROW_FLAG_NULLABLE else 0 := by
  have h2 : ARROW_FLAG_NULLABLE = 2 ^ 1 := rfl
  apply Nat.eq_of_testBit_eq
  intro k
  by_cases hb : flags.testBit 1
  · rw [if_pos hb, Nat.testBit_and, h2, Nat.testBit_two_pow]
    by_cases hk : 1 = k
    · subst hk
      simp [hb]
    · simp [hk]
  · rw [if_neg hb, Nat.testBit_and, h2, Nat.testBit_two_pow, Nat.zero_testBit]
    by_cases hk : 1 = k
    · subst hk
      simp [hb]
    · simp [hk]

/-- After `flags |= ARROW_FLAG_NULLABLE` the nullable flag is set. -/
theorem or_nullable_and_nullable (flags : Nat) :
    (flags ||| ARROW_FLAG_NULLABLE) &&& ARROW_FLAG_NULLABLE = ARROW_FLAG_NULLABLE := by
  have hb : (flags ||| ARROW_FLAG_NULLABLE).testBit 1 = true := by
    rw [testBit_or_nullable]
    simp
  rw [and_nullable_eq, if_pos hb]

/-- After `flags &= ~ARROW_FLAG_NULLABLE` the nullable flag is clear. -/
theorem and_not_nullable_and_nullable (flags : Nat) :
    (flags &&& bitnot64 ARROW_FLAG_NULLABLE) &&& ARROW_FLAG_NULLABLE = 0 := by
  have hb : ¬ (flags &&& bitnot64 ARROW_FLAG_NULLABLE).testBit 1 = true := by
    rw [testBit_and_not_nullable]
    simp
  rw [and_nullable_eq, if_neg hb]

/-- The loop body on a child with a name: only `flags` changes, to
`flags | ARROW_FLAG_NULLABLE` when the lookup gives "nullable" and to
`flags & ~ARROW_FLAG_NULLABLE` otherwise. -/
theorem create_override_child_eq (metadata : PyMetadata) (self : Ptr)
    (format name md : CStr) (flags : Nat) (children_ptr : Ptr) (children : List ArrowSchema)
    (dictionary : Option ArrowSchema) (release : Option ReleaseCallback) (key : String)
    (hkey : name.text = some key) :
    create_override_child metadata
        (.mk self format name md flags children_ptr children dictionary release) =
      .ok (.mk self format name md
        (if metadata.get key = some "nullable" then flags ||| ARROW_FLAG_NULLABLE
          else flags &&& bitnot64 ARROW_FLAG_NULLABLE)
        children_ptr children dictionary release) := by
  by_cases hv : metadata.get key = some "nullable"
  · simp [create_override_child, hkey, hv]
  · simp [create_override_child, hkey, hv]

/-- The loop of the pass visits every child once, in order. -/
theorem create_override_loop_spec (metadata : PyMetadata) (cs : List ArrowSchema) :
    ∀ cs' : List ArrowSchema, create_override_loop metadata cs = .ok cs' →
      cs'.length = cs.length ∧
      ∀ (i : Nat) (c : ArrowSchema), cs[i]? = some c →
        ∃ c', cs'[i]? = some c' ∧ create_override_child metadata c = .ok c' := by
  induction cs with
  | nil =>
      intro cs' h
      simp [create_override_loop] at h
      subst h
      exact ⟨rfl, fun i c hi => by simp at hi⟩
  | cons c0 cs ih =>
      intro cs' h
      unfold create_override_loop at h
      cases hc : create_override_child metadata c0 with
      | error e => simp [hc] at h
      | ok c0' =>
          cases hcs : create_override_loop metadata cs with
          | error e => simp [hc, hcs] at h
          | ok cs1 =>
              simp [hc, hcs] at h
              subst h
              obtain ⟨hlen, hidx⟩ := ih cs1 hcs
              refine ⟨by simp [hlen], ?_⟩
              intro i c hi
              cases i with
              | zero =>
                  simp at hi
                  subst hi
                  exact ⟨c0', by simp, hc⟩
              | succ i =>
                  simp at hi
                  obtain ⟨c', hget, hch⟩ := hidx i c hi
                  exact ⟨c', by simpa using hget, hch⟩

/-- The loop of the pass returns when every child has a name. -/
theorem create_override_loop_ok (metadata : PyMetadata) (cs : List ArrowSchema)
    (hnames : ∀ c ∈ cs, c.name ≠ .null) :
    ∃ cs', create_override_loop metadata cs = .ok cs' := by
  induction cs with
  | nil => exact ⟨[], rfl⟩
  | cons c0 cs ih =>
      obtain ⟨cs1, hcs⟩ := ih (fun c hc => hnames c (List.mem_cons_of_mem _ hc))
      have hname := hnames c0 (List.mem_cons_self _ _)
      cases c0 with
      | mk self format name md flags children_ptr children dictionary release =>
          have hkey : ∃ key, name.text = some key := by
            cases name with
            | null => exact absurd rfl hname
            | static s => exact ⟨s, rfl⟩
            | heap p s => exact ⟨s, rfl⟩
          obtain ⟨key, hkey⟩ := hkey
          have hc := create_override_child_eq metadata self format name md flags children_ptr
            children dictionary release key hkey
          refine ⟨ArrowSchema.mk self format name md
            (if metadata.get key = some "nullable" then flags ||| ARROW_FLAG_NULLABLE
              else flags &&& bitnot64 ARROW_FLAG_NULLABLE)
            children_ptr children dictionary release :: cs1, ?_⟩
          simp [create_override_loop, hc, hcs]

/-- The pass on a schema whose children all have names, in terms of the loop
body: the root keeps its fields, and child `i` of the result is the loop body
applied to child `i` when the metadata object has `get`, and child `i` itself
otherwise. -/
theorem create_override_nullable_spec (metadata : PyMetadata) (schema : ArrowSchema)
    (hnames : ∀ c ∈ schema.children, c.name ≠ .null) :
    ∃ children', create_override_nullable metadata schema =
        .ok (.mk schema.self schema.format schema.name schema.metadata schema.flags
          schema.children_ptr children' schema.dictionary schema.release) ∧
      children'.length = schema.children.length ∧
      ∀ (i : Nat) (c : ArrowSchema), schema.children[i]? = some c →
        ∃ c', children'[i]? = some c' ∧
          (if metadata.hasattr_get then create_override_child metadata c = .ok c'
            else c' = c) := by
  cases schema with
  | mk self format name md flags children_ptr children dictionary release =>
      simp only [ArrowSchema.children] at hnames
      cases hget : metadata.hasattr_get with
      | false =>
          refine ⟨children, by simp [create_override_nullable, hget, ArrowSchema.self,
            ArrowSchema.format, ArrowSchema.name, ArrowSchema.metadata, ArrowSchema.flags,
            ArrowSchema.children_ptr, ArrowSchema.dictionary, ArrowSchema.release], rfl, ?_⟩
          intro i c hi
          exact ⟨c, hi, by simp⟩
      | true =>
          obtain ⟨cs', hloop⟩ := create_override_loop_ok metadata children hnames
          obtain ⟨hlen, hidx⟩ := create_override_loop_spec metadata children cs' hloop
          refine ⟨cs', by simp [create_override_nullable, hget, hloop, ArrowSchema.self,
            ArrowSchema.format, ArrowSchema.name, ArrowSchema.metadata, ArrowSchema.flags,
            ArrowSchema.children_ptr, ArrowSchema.dictionary, ArrowSchema.release], hlen, ?_⟩
          intro i c hi
          obtain ⟨c', hget', hch⟩ := hidx i c hi
          exact ⟨c', hget', by simpa using hch⟩

/-- C13: when the schema's metadata is a map, the override takes precedence
over the declared value: after the pass, a field whose name the map maps to
"nullable" has the nullable flag set whatever it was before, and a field
whose name the map maps to any other value has the flag clear whatever it was
before. -/
theorem create_override_takes_precedence (entries : List (String × String))
    (schema : ArrowSchema) (hnames : ∀ c ∈ schema.children, c.name ≠ .null) :
    ∃ schema', create_override_nullable (.mapping entries) schema = .ok schema' ∧
      schema'.n_children = schema.n_children ∧
      ∀ (i : Nat) (c : ArrowSchema) (key : String),
        schema.children[i]? = some c → c.name.text = some key →
        ∃ c', schema'.children[i]? = some c' ∧
          ((PyMetadata.mapping entries).get key = some "nullable" →
            c'.flags &&& ARROW_FLAG_NULLABLE = ARROW_FLAG_NULLABLE) ∧
          (∀ v, (PyMetadata.mapping entries).get key = some v → v ≠ "nullable" →
            c'.flags &&& ARROW_FLAG_NULLABLE = 0) := by
  obtain ⟨children', hres, hlen, hidx⟩ :=
    create_override_nullable_spec (.mapping entries) schema hnames
  refine ⟨_, hres, by simp [ArrowSchema.n_children, ArrowSchema.children, hlen], ?_⟩
  intro i c key hi hkey
  obtain ⟨c', hget, hch⟩ := hidx i c hi
  simp only [PyMetadata.hasattr_get, if_true] at hch
  refine ⟨c', hget, ?_, ?_⟩
  · intro hv
    cases c with
    | mk self format name md flags children_ptr children dictionary release =>
        simp only [ArrowSchema.name] at hkey
        rw [create_override_child_eq _ _ _ _ _ _ _ _ _ _ key hkey, if_pos hv] at hch
        cases hch
        exact or_nullable_and_nullable flags
  · intro v hv hne
    cases c with
    | mk self format name md flags children_ptr children dictionary release =>
        have hnot : ¬ (PyMetadata.mapping entries).get key = some "nullable" := by
          rw [hv]
          intro h
          exact hne (Option.some.inj h)
        simp only [ArrowSchema.name] at hkey
        rw [create_override_child_eq _ _ _ _ _ _ _ _ _ _ key hkey, if_neg hnot] at hch
        cases hch
        exact and_not_nullable_and_nullable flags

/-- Witness of C13: the map sends `a` to "nullable" and `b` to "required"; field
`a` comes in with flags 0 and goes out with the nullable flag, field `b` comes
in with flags 3 and goes out with flags 1. -/
theorem create_override_takes_precedence_witness :
    create_override_nullable (.mapping [("a", "nullable"), ("b", "required")])
        (.mk 1 (.static "+s") .null .null 0 2
          [.mk 3 (.static "l") (.heap 4 "a") .null 0 nullptr [] none (some .release_schema),
            .mk 5 (.static "l") (.heap 6 "b") .null 3 nullptr [] none (some .release_schema)]
          none (some .release_schema)) =
      .ok (.mk 1 (.static "+s") .null .null 0 2
          [.mk 3 (.static "l") (.heap 4 "a") .null 2 nullptr [] none (some .release_schema),
            .mk 5 (.static "l") (.heap 6 "b") .null 1 nullptr [] none (some .release_schema)]
          none (some .release_schema)) ∧
    ∃ schema', create_override_nullable (.mapping [("a", "nullable"), ("b", "required")])
        (.mk 1 (.static "+s") .null .null 0 2
          [.mk 3 (.static "l") (.heap 4 "a") .null 0 nullptr [] none (some .release_schema),
            .mk 5 (.static "l") (.heap 6 "b") .null 3 nullptr [] none (some .release_schema)]
          none (some .release_schema)) = .ok schema' ∧
      schema'.n_children = 2 :=
  let ⟨schema', hres, hn, _⟩ := create_override_takes_precedence
    [("a", "nullable"), ("b", "required")]
    (.mk 1 (.static "+s") .null .null 0 2
      [.mk 3 (.static "l") (.heap 4 "a") .null 0 nullptr [] none (some .release_schema),
        .mk 5 (.static "l") (.heap 6 "b") .null 3 nullptr [] none (some .release_schema)]
      none (some .release_schema))
    (by
      intro c hc
      simp only [ArrowSchema.children, List.mem_cons, List.mem_singleton, List.not_mem_nil,
        or_false] at hc
      rcases hc with h | h <;> subst h <;> simp [ArrowSchema.name])
  ⟨rfl, schema', hres, hn⟩

/-- C16: in the nullability pass, a field whose name is absent from the map has
its nullable flag cleared whatever it was before; for every field the pass
changes nothing but the nullable bit: every other bit of the 64-bit flags, the
name, the format, the position and all other fields of the child stay; and
when the metadata object has no `get` the schema is returned unchanged. -/
theorem create_override_changes_only_nullable_bit (metadata : PyMetadata)
    (schema : ArrowSchema) (hnames : ∀ c ∈ schema.children, c.name ≠ .null) :
    ∃ schema', create_override_nullable metadata schema = .ok schema' ∧
      schema'.n_children = schema.n_children ∧
      (∀ (i : Nat) (c : ArrowSchema) (key : String),
        schema.children[i]? = some c → c.name.text = some key →
        ∃ c', schema'.children[i]? = some c' ∧
          (metadata.hasattr_get = true → metadata.get key = none →
            c'.flags &&& ARROW_FLAG_NULLABLE = 0) ∧
          (∀ k, k ≠ 1 → k < 64 → c'.flags.testBit k = c.flags.testBit k) ∧
          c'.name = c.name ∧ c'.format = c.format ∧ c'.self = c.self ∧
          c'.metadata = c.metadata ∧ c'.children_ptr = c.children_ptr ∧
          c'.children = c.children ∧ c'.dictionary = c.dictionary ∧
          c'.release = c.release) ∧
      (metadata.hasattr_get = false → schema' = schema) ∧
      (∀ other : ArrowSchema, create_override_nullable .no_get other = .ok other) := by
  obtain ⟨children', hres, hlen, hidx⟩ := create_override_nullable_spec metadata schema hnames
  refine ⟨_, hres, by simp [ArrowSchema.n_children, ArrowSchema.children, hlen], ?_, ?_, ?_⟩
  · intro i c key hi hkey
    obtain ⟨c', hget, hch⟩ := hidx i c hi
    refine ⟨c', hget, ?_⟩
    cases c with
    | mk self format name md flags children_ptr children dictionary release =>
        cases hg : metadata.hasattr_get with
        | false =>
            simp only [hg, Bool.false_eq_true, if_false] at hch
            subst hch
            simp
        | true =>
            simp only [hg, if_true] at hch
            simp only [ArrowSchema.name] at hkey
            rw [create_override_child_eq _ _ _ _ _ _ _ _ _ _ key hkey] at hch
            cases hch
            refine ⟨?_, ?_, rfl, rfl, rfl, rfl, rfl, rfl, rfl, rfl⟩
            · intro _ hnone
              have hnot : ¬ metadata.get key = some "nullable" := by
                rw [hnone]
                exact fun h => Option.noConfusion h
              simp only [ArrowSchema.flags, if_neg hnot]
              exact and_not_nullable_and_nullable flags
            · intro k hk1 hk64
              by_cases hv : metadata.get key = some "nullable"
              · simp only [ArrowSchema.flags, if_pos hv]
                rw [testBit_or_nullable]
                simp [hk1]
              · simp only [ArrowSchema.flags, if_neg hv]
                rw [testBit_and_not_nullable]
                simp [hk1, hk64]
  · intro hg
    cases schema with
    | mk self format name md flags children_ptr children dictionary release =>
        have : create_override_nullable metadata
            (.mk self format name md flags children_ptr children dictionary release) =
            .ok (.mk self format name md flags children_ptr children dictionary release) := by
          simp [create_override_nullable, hg]
        rw [this] at hres
        cases hres
        rfl
  · intro other
    cases other
    simp [create_override_nullable, PyMetadata.hasattr_get]

/-- Witness of C16: field `c` is absent from the map and comes in with flags 3
(nullable bit and bit 0): it goes out with flags 1. -/
theorem create_override_changes_only_nullable_bit_witness :
    create_override_nullable (.mapping [("a", "nullable")])
        (.mk 1 (.static "+s") .null .null 0 2
          [.mk 3 (.static "l") (.heap 4 "c") .null 3 nullptr [] none (some .release_schema)]
          none (some .release_schema)) =
      .ok (.mk 1 (.static "+s") .null .null 0 2
          [.mk 3 (.static "l") (.heap 4 "c") .null 1 nullptr [] none (some .release_schema)]
          none (some .release_schema)) ∧
    ∃ schema', create_override_nullable (.mapping [("a", "nullable")])
        (.mk 1 (.static "+s") .null .null 0 2
          [.mk 3 (.static "l") (.heap 4 "c") .null 3 nullptr [] none (some .release_schema)]
          none (some .release_schema)) = .ok schema' ∧
      schema'.n_children = 1 :=
  let ⟨schema', hres, hn, _⟩ := create_override_changes_only_nullable_bit
    (.mapping [("a", "nullable")])
    (.mk 1 (.static "+s") .null .null 0 2
      [.mk 3 (.static "l") (.heap 4 "c") .null 3 nullptr [] none (some .release_schema)]
      none (some .release_schema))
    (by
      intro c hc
      simp only [ArrowSchema.children, List.mem_singleton] at hc
      subst hc
      simp [ArrowSchema.name])
  ⟨rfl, schema', hres, hn⟩

/-! ## Theorems: the `try` block of the `create` binding -/

/-- C14: the `create` binding classifies how the call of
`SOMADataFrame::create` ends (the nullability pass having gone through): a
`std::out_of_range` is raised as a type error carrying exactly the text of
`e.what()`, every other `std::exception` is raised as an error that is not a
type error, and a call that returns raises nothing; the same holds for the
`try` block on its own. -/
theorem create_classifies_failures
    (SOMADataFrame_create : ArrowSchema → Except CppException Unit) (py_schema : PySchema)
    (schema : ArrowSchema)
    (hpass : create_override_nullable py_schema.metadata py_schema._export_to_c = .ok schema) :
    (∀ what, SOMADataFrame_create schema = .error (.out_of_range what) →
      create SOMADataFrame_create py_schema = .error (.raised (.type_error what))) ∧
    (∀ what, SOMADataFrame_create schema = .error (.exception what) →
      ∃ e, create SOMADataFrame_create py_schema = .error (.raised e) ∧
        e.is_type_error = false) ∧
    (SOMADataFrame_create schema = .ok () → create SOMADataFrame_create py_schema = .ok ()) ∧
    (∀ what, create_try (.error (.out_of_range what)) = .error (.type_error what)) ∧
    (∀ what, ∃ e, create_try (.error (.exception what)) = .error e ∧
      e.is_type_error = false) ∧
    create_try (.ok ()) = .ok () := by
  refine ⟨?_, ?_, ?_, fun _ => rfl, fun what => ⟨.generic_error what, rfl, rfl⟩, rfl⟩
  · intro what hcall
    simp [create, hpass, hcall, create_try]
  · intro what hcall
    exact ⟨.generic_error what, by simp [create, hpass, hcall, create_try, TPY_ERROR_LOC], rfl⟩
  · intro hcall
    simp [create, hpass, hcall, create_try]

/-- Witness of C14: a schema without metadata and a call that ends with
`std::out_of_range("unsupported type")`. -/
theorem create_classifies_failures_witness :
    create (fun _ => .error (.out_of_range "unsupported type"))
        ⟨.mk 1 (.static "+s") .null .null 0 nullptr [] none (some .release_schema), .no_get⟩ =
      .error (.raised (.type_error "unsupported type")) :=
  (create_classifies_failures (fun _ => .error (.out_of_range "unsupported type"))
    ⟨.mk 1 (.static "+s") .null .null 0 nullptr [] none (some .release_schema), .no_get⟩
    (.mk 1 (.static "+s") .null .null 0 nullptr [] none (some .release_schema)) rfl).1
    "unsupported type" rfl


/-! ## Theorems: pagination -/

/-- An exhausted cursor keeps returning the end-of-results signal. -/
theorem read_next_exhausted (cursor : QueryCursor) (h : cursor.state = .Exhausted) :
    read_next cursor = (none, cursor) := by
  simp [read_next, h]

/-- The test loop on a cursor that is not exhausted: with more calls allowed
than the engine has incomplete pages plus two, the end-of-results signal
comes, the total is the number of rows the engine holds, and the cursor is
exhausted. -/
theorem total_cells_of_ready (incomplete : List Nat) :
    ∀ (complete fuel : Nat) (state : CursorState), state ≠ .Exhausted →
      incomplete.length + 2 ≤ fuel →
      ∃ calls cursor,
        total_cells fuel { state := state, engine := ⟨incomplete, complete⟩ } =
          some (incomplete.sum + complete, calls, cursor) ∧
        calls ≤ incomplete.length + 2 ∧ cursor.state = .Exhausted := by
  induction incomplete with
  | nil =>
      intro complete fuel state hstate hfuel
      obtain ⟨f, rfl⟩ : ∃ f, fuel = f + 2 := ⟨fuel - 2, by simp at hfuel; omega⟩
      by_cases hc : complete = 0
      · subst hc
        refine ⟨1, { state := .Exhausted, engine := ⟨[], 0⟩ }, ?_, by simp, rfl⟩
        cases state <;> simp [total_cells, read_next] at hstate ⊢
      · refine ⟨2, { state := .Exhausted, engine := ⟨[], 0⟩ }, ?_, by simp, rfl⟩
        cases state <;> simp [total_cells, read_next, hc] at hstate ⊢
  | cons rows rest ih =>
      intro complete fuel state hstate hfuel
      obtain ⟨f, rfl⟩ : ∃ f, fuel = f + 1 := ⟨fuel - 1, by simp at hfuel; omega⟩
      obtain ⟨calls, cursor, hrun, hcalls, hex⟩ := ih complete f .PageReady (by simp)
        (by simp at hfuel; omega)
      refine ⟨calls + 1, cursor, ?_, by simp; omega, hex⟩
      cases state <;> simp [total_cells, read_next, hrun, Nat.add_assoc] at hstate ⊢

/-- C15 (on the cursor modelled from the specification): for every run of the
engine on a fixed array and query configuration, the loop of repeated
`read_next` / `next_results` calls on a fresh cursor gets the end-of-results
signal after at most (number of incomplete pages) + 2 calls, the row counts
of the pages returned before it add up to the total number of rows the
engine holds for the query, and every call after it gives the signal
again. -/
theorem read_next_exhausts_with_total (run : EngineRun) (fuel : Nat)
    (hfuel : run.incomplete.length + 2 ≤ fuel) :
    ∃ calls cursor,
      total_cells fuel (QueryCursor.create run) = some (run.total_rows, calls, cursor) ∧
      calls ≤ run.incomplete.length + 2 ∧
      cursor.state = .Exhausted ∧
      read_next cursor = (none, cursor) := by
  obtain ⟨incomplete, complete⟩ := run
  obtain ⟨calls, cursor, hrun, hcalls, hex⟩ :=
    total_cells_of_ready incomplete complete fuel .Created (by simp) hfuel
  exact ⟨calls, cursor, hrun, hcalls, hex, read_next_exhausted cursor hex⟩

/-- Witness of C15: an engine that holds 4848644 rows and hands them out in
three pages; the loop ends within 4 calls with that total. -/
theorem read_next_exhausts_with_total_witness :
    ∃ calls cursor,
      total_cells 4 (QueryCursor.create ⟨[2000000, 2000000], 848644⟩) =
        some (4848644, calls, cursor) ∧
      calls ≤ 4 ∧ cursor.state = .Exhausted :=
  let ⟨calls, cursor, hrun, hcalls, hex, _⟩ :=
    read_next_exhausts_with_total ⟨[2000000, 2000000], 848644⟩ 4 (by decide)
  ⟨calls, cursor, hrun, hcalls, hex⟩

end tiledbsoma
